import Mathlib

/-!
# Verification of the Presence & Dialogue Orchestration Engine

Shallow embedding of the chat-bot orchestration engine (mention resolver,
conversation coordinator, population controller) and proofs of its
specification claims.

Strings are modelled as `List Char` (JS strings are sequences of code
units; all data handled by the engine is plain text).  Time is modelled
as `Nat` milliseconds, timers as explicit data, and randomness as
explicit parameters with their documented ranges.
-/

set_option maxHeartbeats 1600000

namespace XnMc

/-! ## Mention resolver: bounded edit distance (`editDistance` in mention.js)

The reference definition of the Levenshtein distance is Mathlib's
`levenshtein` with the default unit cost structure. -/

/-- The true Levenshtein distance between two lists of characters
(unit costs for insert, delete, and substitute). -/
def lev (a b : List Char) : Nat :=
  levenshtein Levenshtein.defaultCost a b

theorem lev_nil_left (b : List Char) : lev [] b = b.length := by
  induction b with
  | nil => simp [lev]
  | cons y ys ih => simp [lev, Levenshtein.defaultCost] at ih ⊢; omega

theorem lev_nil_right (a : List Char) : lev a [] = a.length := by
  induction a with
  | nil => simp [lev]
  | cons x xs ih => simp [lev, Levenshtein.defaultCost] at ih ⊢; omega

theorem lev_cons_cons (x y : Char) (xs ys : List Char) :
    lev (x :: xs) (y :: ys) =
      min (1 + lev xs (y :: ys))
        (min (1 + lev (x :: xs) ys) ((if x = y then 0 else 1) + lev xs ys)) := by
  simp [lev, Levenshtein.defaultCost]

/-- The Levenshtein recurrence at the *ends* of the two lists.  This is what
relates the row-by-row dynamic programming of the source (which consumes the
two strings front-to-back) to the front-recursive reference definition. -/
theorem nat_add_min_left (a b c : Nat) : a + (b ⊓ c) = (a + b) ⊓ (a + c) := by omega

theorem nat_add_min_right (a b c : Nat) : (b ⊓ c) + a = (b + a) ⊓ (c + a) := by omega

theorem lev_snoc_snoc (x y : Char) :
    ∀ (n : Nat) (xs ys : List Char), xs.length + ys.length ≤ n →
      lev (xs ++ [x]) (ys ++ [y]) =
        min (lev xs (ys ++ [y]) + 1)
          (min (lev (xs ++ [x]) ys + 1)
            (lev xs ys + (if x = y then 0 else 1))) := by
  intro n
  induction n with
  | zero =>
    intro xs ys h
    have hx : xs = [] := List.length_eq_zero.mp (by omega)
    have hy : ys = [] := List.length_eq_zero.mp (by omega)
    subst hx; subst hy
    simp only [List.nil_append, lev_cons_cons, lev_nil_left, lev_nil_right,
      List.length_cons, List.length_nil]
    generalize (if x = y then (0 : Nat) else 1) = c
    omega
  | succ n ih =>
    intro xs ys h
    match xs, ys with
    | [], [] =>
      simp only [List.nil_append, lev_cons_cons, lev_nil_left, lev_nil_right,
        List.length_cons, List.length_nil]
      generalize (if x = y then (0 : Nat) else 1) = c
      omega
    | [], y' :: ys' =>
      have h1 := ih [] ys' (by simp only [List.length_cons, List.length_nil] at h ⊢; omega)
      simp only [List.nil_append, List.cons_append] at h1 ⊢
      rw [lev_cons_cons x y' [] (ys' ++ [y]), h1, lev_cons_cons x y' [] ys']
      simp only [lev_nil_left, lev_nil_right, List.length_append, List.length_cons,
        List.length_nil]
      generalize (if x = y' then (0 : Nat) else 1) = c'
      generalize (if x = y then (0 : Nat) else 1) = c
      generalize lev [x] ys' = A
      omega
    | x' :: xs', [] =>
      have h1 := ih xs' [] (by simp only [List.length_cons, List.length_nil] at h ⊢; omega)
      simp only [List.nil_append, List.cons_append] at h1 ⊢
      rw [lev_cons_cons x' y (xs' ++ [x]) [], h1, lev_cons_cons x' y xs' []]
      simp only [lev_nil_left, lev_nil_right, List.length_append, List.length_cons,
        List.length_nil]
      generalize (if x' = y then (0 : Nat) else 1) = c'
      generalize (if x = y then (0 : Nat) else 1) = c
      generalize lev xs' [y] = A
      omega
    | x' :: xs', y' :: ys' =>
      have h1 := ih xs' (y' :: ys') (by simp only [List.length_cons] at h ⊢; omega)
      have h2 := ih (x' :: xs') ys' (by simp only [List.length_cons] at h ⊢; omega)
      have h3 := ih xs' ys' (by simp only [List.length_cons] at h ⊢; omega)
      clear ih h
      simp only [List.cons_append] at h1 h2 h3 ⊢
      rw [lev_cons_cons x' y' (xs' ++ [x]) (ys' ++ [y]), h1, h2, h3,
        lev_cons_cons x' y' xs' (ys' ++ [y]),
        lev_cons_cons x' y' (xs' ++ [x]) ys',
        lev_cons_cons x' y' xs' ys']
      generalize (if x' = y' then (0 : Nat) else 1) = c'
      generalize (if x = y then (0 : Nat) else 1) = c
      generalize lev xs' (y' :: (ys' ++ [y])) = A
      generalize lev (xs' ++ [x]) (y' :: ys') = B
      generalize lev xs' (y' :: ys') = C3
      generalize lev (x' :: xs') (ys' ++ [y]) = D
      generalize lev (x' :: (xs' ++ [x])) ys' = F
      generalize lev (x' :: xs') ys' = H
      generalize lev xs' (ys' ++ [y]) = I2
      generalize lev (xs' ++ [x]) ys' = J
      generalize lev xs' ys' = K
      simp only [nat_add_min_left, nat_add_min_right]
      apply le_antisymm <;> simp only [le_min_iff, min_le_iff] <;> omega

/-- `lev` is bounded below by the difference of the lengths. -/
theorem lev_length_le :
    ∀ (n : Nat) (a b : List Char), a.length + b.length ≤ n →
      a.length ≤ lev a b + b.length ∧ b.length ≤ lev a b + a.length := by
  intro n
  induction n with
  | zero =>
    intro a b h
    have hx : a = [] := List.length_eq_zero.mp (by omega)
    have hy : b = [] := List.length_eq_zero.mp (by omega)
    subst hx; subst hy
    simp [lev_nil_left]
  | succ n ih =>
    intro a b h
    match a, b with
    | [], b => simp [lev_nil_left]
    | a :: as, [] => simp [lev_nil_right]
    | x :: xs, y :: ys =>
      have h1 := ih xs (y :: ys) (by simp at h ⊢; omega)
      have h2 := ih (x :: xs) ys (by simp at h ⊢; omega)
      have h3 := ih xs ys (by simp at h ⊢; omega)
      rw [lev_cons_cons]
      simp only [List.length_cons] at h1 h2 h3 ⊢
      generalize (if x = y then (0 : Nat) else 1) = c at *
      omega

theorem lev_ge_dist (a b : List Char) : Nat.dist a.length b.length ≤ lev a b := by
  have h := lev_length_le (a.length + b.length) a b le_rfl
  simp only [Nat.dist]
  omega

/-- Convenience form of `lev_snoc_snoc` without the fuel argument. -/
theorem lev_snoc (x y : Char) (xs ys : List Char) :
    lev (xs ++ [x]) (ys ++ [y]) =
      min (lev xs (ys ++ [y]) + 1)
        (min (lev (xs ++ [x]) ys + 1)
          (lev xs ys + (if x = y then 0 else 1))) :=
  lev_snoc_snoc x y (xs.length + ys.length) xs ys le_rfl

/-- Inner loop of `editDistance` (mention.js).  Computes the entries
`curr[1..n]` of the current row from the previous row `prev` and the running
value `c = curr[j-1]`, mirroring
`curr[j] = Math.min(prev[j] + 1, curr[j - 1] + 1, prev[j - 1] + cost)`. -/
def jsRow (x : Char) : List Char → List Nat → Nat → List Nat
  | [], _, _ => []
  | _ :: _, [], _ => []
  | _ :: _, [_], _ => []
  | y :: ys, p0 :: p1 :: ps, c =>
      let cj := min (p1 + 1) (min (c + 1) (p0 + (if x = y then 0 else 1)))
      cj :: jsRow x ys (p1 :: ps) cj

/-- The intended contents of a DP row: `rowSpec u v ys` lists
`lev u (v ++ ys.take k)` for `k = 0 .. ys.length`. -/
def rowSpec (u : List Char) : List Char → List Char → List Nat
  | v, [] => [lev u v]
  | v, y :: ys => lev u v :: rowSpec u (v ++ [y]) ys

theorem rowSpec_head_cons (u v ys : List Char) :
    rowSpec u v ys = lev u v :: (rowSpec u v ys).tail := by
  cases ys <;> simp [rowSpec]

/-- The row computation is correct: starting from the row for prefix `u`,
`jsRow` produces (the tail of) the row for prefix `u ++ [x]`. -/
theorem jsRow_spec (x : Char) (u : List Char) :
    ∀ (ys v : List Char) (c : Nat), c = lev (u ++ [x]) v →
      jsRow x ys (rowSpec u v ys) c = (rowSpec (u ++ [x]) v ys).tail := by
  intro ys
  induction ys with
  | nil => intro v c _; simp [rowSpec, jsRow]
  | cons y ys ih =>
    intro v c hc
    rw [rowSpec, rowSpec_head_cons u (v ++ [y]) ys, jsRow]
    have hcj : min (lev u (v ++ [y]) + 1)
        (min (c + 1) (lev u v + (if x = y then 0 else 1))) =
        lev (u ++ [x]) (v ++ [y]) := by
      rw [hc, lev_snoc]
    rw [hcj]
    have := ih (v ++ [y]) (lev (u ++ [x]) (v ++ [y])) rfl
    rw [rowSpec_head_cons u (v ++ [y]) ys] at this
    rw [this, rowSpec, List.tail_cons, rowSpec_head_cons (u ++ [x]) (v ++ [y]) ys,
      List.tail_cons]

theorem rowSpec_getLastD (u : List Char) :
    ∀ (ys v : List Char) (d : Nat), (rowSpec u v ys).getLastD d = lev u (v ++ ys) := by
  intro ys
  induction ys with
  | nil => intro v d; simp [rowSpec]
  | cons y ys ih =>
    intro v d
    rw [rowSpec, List.getLastD_cons, ih (v ++ [y]) (lev u v)]
    simp

theorem rowSpec_mem (u : List Char) :
    ∀ (ys v : List Char) (k : Nat), k ≤ ys.length →
      lev u (v ++ ys.take k) ∈ rowSpec u v ys := by
  intro ys
  induction ys with
  | nil =>
    intro v k hk
    simp at hk
    subst hk
    simp [rowSpec]
  | cons y ys ih =>
    intro v k hk
    match k with
    | 0 => simp [rowSpec]
    | k + 1 =>
      rw [rowSpec]
      refine List.mem_cons_of_mem _ ?_
      have := ih (v ++ [y]) k (by simp at hk; omega)
      simpa [List.append_assoc] using this

theorem rowSpec_mem_elim (u : List Char) :
    ∀ (ys v : List Char) (e : Nat), e ∈ rowSpec u v ys →
      ∃ k, k ≤ ys.length ∧ e = lev u (v ++ ys.take k) := by
  intro ys
  induction ys with
  | nil =>
    intro v e he
    simp [rowSpec] at he
    exact ⟨0, by simp, by simpa using he⟩
  | cons y ys ih =>
    intro v e he
    rw [rowSpec, List.mem_cons] at he
    rcases he with he | he
    · exact ⟨0, by simp, by simpa using he⟩
    · obtain ⟨k, hk, hek⟩ := ih (v ++ [y]) e he
      refine ⟨k + 1, by simp; omega, ?_⟩
      simpa [List.append_assoc] using hek

theorem foldl_min_le_init (l : List Nat) : ∀ d : Nat, l.foldl min d ≤ d := by
  induction l with
  | nil => intro d; simp
  | cons a l ih => intro d; exact le_trans (ih (min d a)) (by omega)

theorem foldl_min_le_mem (l : List Nat) :
    ∀ (d a : Nat), a ∈ l → l.foldl min d ≤ a := by
  induction l with
  | nil => intro d a ha; simp at ha
  | cons b l ih =>
    intro d a ha
    rw [List.mem_cons] at ha
    rcases ha with rfl | ha
    · exact le_trans (foldl_min_le_init l _) (by omega)
    · exact ih (min d b) a ha

theorem le_foldl_min (l : List Nat) :
    ∀ (d m : Nat), m ≤ d → (∀ a ∈ l, m ≤ a) → m ≤ l.foldl min d := by
  induction l with
  | nil => intro d m hd _; simpa using hd
  | cons b l ih =>
    intro d m hd hl
    rw [List.foldl_cons]
    exact ih (min d b) m (le_min hd (hl b (List.mem_cons_self b l))) fun a ha =>
      hl a (List.mem_cons_of_mem b ha)

/-- Minimum of the DP row for prefix `w` (over all prefixes of `b`),
as computed by the source's `rowMin` accumulator. -/
def levRowMin (w b : List Char) : Nat :=
  ((rowSpec w [] b).tail).foldl min (lev w [])

theorem levRowMin_le_entry (w b : List Char) (k : Nat) (hk : k ≤ b.length) :
    levRowMin w b ≤ lev w (b.take k) := by
  have hmem := rowSpec_mem w b [] k hk
  rw [rowSpec_head_cons w [] b, List.mem_cons] at hmem
  rw [List.nil_append] at hmem
  rcases hmem with h | h
  · rw [h]; exact foldl_min_le_init _ _
  · exact foldl_min_le_mem _ _ _ h

/-- The minimum of row `w` bounds every entry of the next row `w ++ [z]`. -/
theorem levRowMin_le_next_entry (w b : List Char) (z : Char) :
    ∀ (j : Nat), levRowMin w b ≤ lev (w ++ [z]) (b.take j) := by
  intro j
  induction j with
  | zero =>
    have h0 : levRowMin w b ≤ lev w [] := foldl_min_le_init _ _
    simp only [List.take_zero]
    rw [lev_nil_right] at h0 ⊢
    simp only [List.length_append, List.length_cons, List.length_nil]
    omega
  | succ j ih =>
    by_cases hj : b.length ≤ j
    · have htk : b.take (j + 1) = b.take j := by
        rw [List.take_of_length_le (by omega), List.take_of_length_le hj]
      rw [htk]
      exact ih
    · push_neg at hj
      have htake : b.take (j + 1) = b.take j ++ [b[j]] := by
        rw [List.take_succ]
        simp [List.getElem?_eq_getElem hj]
      rw [htake, lev_snoc]
      have e1 : levRowMin w b ≤ lev w (b.take j ++ [b[j]]) := by
        have := levRowMin_le_entry w b (j + 1) (by omega)
        rwa [htake] at this
      have e2 : levRowMin w b ≤ lev w (b.take j) :=
        levRowMin_le_entry w b j (by omega)
      refine le_min (by omega) (le_min (by omega) (by omega))

theorem levRowMin_mono (w b : List Char) (z : Char) :
    levRowMin w b ≤ levRowMin (w ++ [z]) b := by
  refine le_foldl_min _ _ _ ?_ ?_
  · have := levRowMin_le_next_entry w b z 0
    simpa using this
  · intro a ha
    have hmem : a ∈ rowSpec (w ++ [z]) [] b := by
      rw [rowSpec_head_cons (w ++ [z]) [] b]
      exact List.mem_cons_of_mem _ ha
    obtain ⟨k, hk, rfl⟩ := rowSpec_mem_elim (w ++ [z]) b [] a hmem
    rw [List.nil_append]
    exact levRowMin_le_next_entry w b z k

/-- The minimum of any intermediate row is a lower bound for the final
Levenshtein distance: rows can only grow once their minimum is reached. -/
theorem levRowMin_le_lev (b : List Char) :
    ∀ (rest w : List Char), levRowMin w b ≤ lev (w ++ rest) b := by
  intro rest
  induction rest with
  | nil =>
    intro w
    have := levRowMin_le_entry w b b.length le_rfl
    simpa [List.take_length] using this
  | cons r rest ih =>
    intro w
    have h1 : levRowMin w b ≤ levRowMin (w ++ [r]) b := levRowMin_mono w b r
    have h2 : levRowMin (w ++ [r]) b ≤ lev ((w ++ [r]) ++ rest) b := ih (w ++ [r])
    rw [List.append_assoc] at h2
    simpa using le_trans h1 h2

/-- Outer loop of `editDistance` (mention.js): one iteration per remaining
character of the first string, with the early `rowMin > maxDist` bail-out;
at the end returns `prev[n]`. -/
def edLoop (b : List Char) (maxDist : Nat) : List Char → Nat → List Nat → Nat
  | [], _, prev => prev.getLastD 0
  | x :: xs, i, prev =>
      let row := jsRow x b prev i
      let rowMin := row.foldl min i
      if maxDist < rowMin then maxDist + 1
      else edLoop b maxDist xs (i + 1) (i :: row)

/-- `editDistance(a, b, maxDist)` from mention.js: length-bounded Levenshtein
distance with an early bail on the length difference and on rows whose
minimum exceeds the bound. -/
def editDistance (a b : List Char) (maxDist : Nat) : Nat :=
  if maxDist < Nat.dist a.length b.length then maxDist + 1
  else edLoop b maxDist a 1 (List.range (b.length + 1))

theorem rowSpec_nil_left (b : List Char) :
    ∀ (v : List Char), rowSpec [] v b = (List.range (b.length + 1)).map (v.length + ·) := by
  induction b with
  | nil =>
    intro v
    simp [rowSpec, lev_nil_left, List.range_succ]
  | cons y ys ih =>
    intro v
    rw [rowSpec, ih (v ++ [y])]
    simp only [List.length_cons, List.length_append, List.length_nil, lev_nil_left]
    rw [List.range_succ_eq_map (ys.length + 1)]
    simp only [List.map_cons, List.map_map]
    refine List.cons_eq_cons.mpr ⟨by simp, ?_⟩
    refine List.map_congr_left fun k _ => ?_
    simp only [Function.comp_apply]
    omega

theorem edLoop_correct (b : List Char) (maxDist : Nat) :
    ∀ (xs u : List Char),
      (lev (u ++ xs) b ≤ maxDist →
         edLoop b maxDist xs (u.length + 1) (rowSpec u [] b) = lev (u ++ xs) b)
      ∧ (maxDist < lev (u ++ xs) b →
         maxDist < edLoop b maxDist xs (u.length + 1) (rowSpec u [] b)) := by
  intro xs
  induction xs with
  | nil =>
    intro u
    rw [edLoop, rowSpec_getLastD u b [], List.nil_append, List.append_nil]
    exact ⟨fun h => rfl, fun h => h⟩
  | cons x xs ih =>
    intro u
    have hinit : u.length + 1 = lev (u ++ [x]) [] := by
      rw [lev_nil_right]; simp
    have hrow : jsRow x b (rowSpec u [] b) (u.length + 1) = (rowSpec (u ++ [x]) [] b).tail := by
      rw [hinit]
      exact jsRow_spec x u b [] _ rfl
    have hmin : (jsRow x b (rowSpec u [] b) (u.length + 1)).foldl min (u.length + 1) =
        levRowMin (u ++ [x]) b := by
      rw [hrow, levRowMin, ← hinit]
    have hcurr : (u.length + 1) :: jsRow x b (rowSpec u [] b) (u.length + 1) =
        rowSpec (u ++ [x]) [] b := by
      rw [hrow, hinit]
      exact (rowSpec_head_cons (u ++ [x]) [] b).symm
    have hbound : levRowMin (u ++ [x]) b ≤ lev (u ++ x :: xs) b := by
      have := levRowMin_le_lev b xs (u ++ [x])
      rwa [List.append_assoc, List.singleton_append] at this
    rw [edLoop]
    simp only [hmin]
    by_cases hbail : maxDist < levRowMin (u ++ [x]) b
    · rw [if_pos hbail]
      constructor
      · intro h; omega
      · intro h; omega
    · rw [if_neg hbail, hcurr]
      have := ih (u ++ [x])
      rw [List.append_assoc, List.singleton_append] at this
      have hlen : u.length + 1 + 1 = (u ++ [x]).length + 1 := by simp
      rw [hlen]
      exact this

/-- `editDistance` is a faithful bounded Levenshtein distance: it returns the
true distance whenever that distance is within the bound, and a value
strictly above the bound whenever the true distance exceeds it — the early
bail-outs never produce a false positive. -/
theorem editDistance_correct (a b : List Char) (maxDist : Nat) :
    (lev a b ≤ maxDist → editDistance a b maxDist = lev a b)
    ∧ (maxDist < lev a b → maxDist < editDistance a b maxDist) := by
  rw [editDistance]
  by_cases hd : maxDist < Nat.dist a.length b.length
  · rw [if_pos hd]
    have := lev_ge_dist a b
    exact ⟨fun h => by omega, fun h => by omega⟩
  · rw [if_neg hd]
    have hrs : List.range (b.length + 1) = rowSpec [] [] b := by
      rw [rowSpec_nil_left b []]
      simp only [List.length_nil]
      rw [show ((0 : Nat) + ·) = id from funext fun k => by simp, List.map_id]
    have h := edLoop_correct b maxDist a []
    rw [List.nil_append, List.length_nil] at h
    rw [hrs]
    exact h

/-! ## Mention resolver: aliases and matching (mention.js) -/

/-- The whitespace code points matched by `\\s` in a JS regular expression
(also removed by `String.trim`). -/
def wsChars : List Char :=
  [' ', '\t', '\n', '\r', '\x0b', '\x0c',
   '\u00a0', '\u1680', '\u2000', '\u2001', '\u2002', '\u2003', '\u2004', '\u2005',
   '\u2006', '\u2007', '\u2008', '\u2009', '\u200a', '\u2028', '\u2029', '\u202f',
   '\u205f', '\u3000', '\ufeff']

/-- Characters of the tokenizer's separator class `[\s,!?.;:'"]`. -/
def sepChars : List Char :=
  wsChars ++ [',', '!', '?', '.', ';', ':', '\'', '"']

def isSep (c : Char) : Bool := sepChars.contains c

/-- Split a character list into the maximal runs of characters not satisfying
`p` (the accumulator holds the current run, reversed).  Empty runs are not
produced; the source's `split` keeps empty pieces but every use filters them
away by a minimum-length condition, so the two agree after that filter. -/
def splitRuns (p : Char → Bool) : List Char → List Char → List (List Char)
  | acc, [] => if acc = [] then [] else [acc.reverse]
  | acc, c :: cs =>
      if p c then
        if acc = [] then splitRuns p [] cs else acc.reverse :: splitRuns p [] cs
      else splitRuns p (c :: acc) cs

/-- `lower.split(/[\s,!?.;:'"]+/).filter(t => t.length >= 2)` from
`findMentionedBots` (the argument is the already-lowercased text). -/
def tokenize (lower : List Char) : List (List Char) :=
  (splitRuns isSep [] lower).filter (fun t => 2 ≤ t.length)

/-- `lower.replace(/^x+|x+$/g, '')`: strip leading and trailing runs of `x`. -/
def stripX (l : List Char) : List Char :=
  (((l.dropWhile (· == 'x')).reverse.dropWhile (· == 'x')).reverse)

/-- Keep the first occurrence of each element (JS `Set` insertion order). -/
def dedupKeepFirst : List (List Char) → List (List Char) :=
  go []
where
  go (seen : List (List Char)) : List (List Char) → List (List Char)
    | [] => []
    | x :: xs => if seen.contains x then go seen xs else x :: go (x :: seen) xs

/-- `buildAliases(username)` from mention.js: the lowercased name, the name
without underscores, each underscore-separated part of length ≥ 3, and the
name with leading/trailing `x` stripped if the result has length ≥ 3. -/
def buildAliases (username : List Char) : List (List Char) :=
  let lower := username.map Char.toLower
  let noUnderscore := lower.filter (· != '_')
  let parts := (splitRuns (· == '_') [] lower).filter (fun p => 3 ≤ p.length)
  let stripped := stripX lower
  dedupKeepFirst ([lower, noUnderscore] ++ parts ++
    (if 3 ≤ stripped.length then [stripped] else []))

/-- Fuzzy threshold: `al.length <= 4 ? 1 : 2`. -/
def aliasMaxDist (al : List Char) : Nat := if al.length ≤ 4 then 1 else 2

/-- `fuzzy.get(name)` on the insertion-ordered association list that models
the JS `Map`. -/
def mapGet (m : List (List Char × Nat)) (k : List Char) : Option Nat :=
  match m with
  | [] => none
  | (k', v) :: rest => if k' = k then some v else mapGet rest k

/-- `fuzzy.set(name, v)`: update in place keeping the original insertion
position, or append when the key is new. -/
def mapSet (m : List (List Char × Nat)) (k : List Char) (v : Nat) :
    List (List Char × Nat) :=
  match m with
  | [] => [(k, v)]
  | (k', v') :: rest => if k' = k then (k', v) :: rest else (k', v') :: mapSet rest k v

/-- One token of the fuzzy-match branch of the alias loop: compute the
bounded edit distance and record it when it is within the threshold and
improves on the recorded best. -/
def fuzzyStep (name al : List Char) (m : List (List Char × Nat))
    (token : List Char) : List (List Char × Nat) :=
  let maxDist := aliasMaxDist al
  let dist := editDistance token al maxDist
  if dist ≤ maxDist then
    match mapGet m name with
    | some prev => if dist < prev then mapSet m name dist else m
    | none => mapSet m name dist
  else m

/-- The fuzzy-match branch of the alias loop for a single alias, over all
tokens. -/
def fuzzyScanTokens (name al : List Char) (tokens : List (List Char))
    (fuzzy : List (List Char × Nat)) : List (List Char × Nat) :=
  tokens.foldl (fuzzyStep name al) fuzzy

/-- `found.add(name)` on the insertion-ordered list that models the JS `Set`. -/
def addFound (found : List (List Char)) (name : List Char) : List (List Char) :=
  if found.contains name then found else found ++ [name]

/-- The per-profile al loop of `findMentionedBots`: exact token match or
long-al substring match stops the loop and records the profile as found;
otherwise the fuzzy distances for this al are recorded and the next al
is tried. -/
def aliasLoop (name lower : List Char) (tokens : List (List Char)) :
    List (List Char) → List (List Char) × List (List Char × Nat) →
      List (List Char) × List (List Char × Nat)
  | [], st => st
  | al :: rest, (found, fuzzy) =>
      if tokens.contains al then (addFound found name, fuzzy)
      else if 5 ≤ al.length ∧ al <:+: lower then (addFound found name, fuzzy)
      else aliasLoop name lower tokens rest (found, fuzzyScanTokens name al tokens fuzzy)

/-- A simulated participant as far as mention resolution and orchestration
are concerned: only the username is consulted. -/
structure BotProfile where
  username : List Char
deriving DecidableEq, Repr

/-- Stable insertion into a list sorted by the recorded distance. -/
def insertByDist (x : List Char × Nat) : List (List Char × Nat) → List (List Char × Nat)
  | [] => [x]
  | y :: ys => if x.2 ≤ y.2 then x :: y :: ys else y :: insertByDist x ys

/-- Stable sort by ascending recorded distance, modelling the JS
`sort((a, b) => a[1] - b[1])` (stable per the ECMAScript specification). -/
def sortByDist : List (List Char × Nat) → List (List Char × Nat)
  | [] => []
  | x :: xs => insertByDist x (sortByDist xs)

/-- `findMentionedBots(message, botProfiles)` from mention.js. -/
def findMentionedBots (message : List Char) (profiles : List BotProfile) :
    List (List Char) :=
  let lower := message.map Char.toLower
  let tokens := tokenize lower
  let st := profiles.foldl
    (fun st p => aliasLoop p.username lower tokens (buildAliases p.username) st)
    ([], [])
  let found := st.1
  found ++ (sortByDist st.2).foldl
    (fun r nd => if found.contains nd.1 then r else r ++ [nd.1]) []

/-- `findMentionedBot`: head of the `findMentionedBots` ordering. -/
def findMentionedBot (message : List Char) (profiles : List BotProfile) :
    Option (List Char) :=
  (findMentionedBots message profiles).head?

/-! ### Characterisation of the alias loop -/

/-- The distance contributed by one token against one alias: the bounded
edit distance when it is within the alias's threshold. -/
def tokDist (al token : List Char) : Option Nat :=
  let d := editDistance token al (aliasMaxDist al)
  if d ≤ aliasMaxDist al then some d else none

/-- Minimum of two optional distances (`none` = no distance recorded). -/
def optMin : Option Nat → Option Nat → Option Nat
  | none, o => o
  | some a, none => some a
  | some a, some b => some (min a b)

/-- Running minimum of `f` over a list. -/
def bestOver (f : List Char → Option Nat) (l : List (List Char)) : Option Nat :=
  l.foldl (fun acc t => optMin acc (f t)) none

/-- The per-token update of the fuzzy best, as a pure function on the
recorded best. -/
def bestUpdTok (al : List Char) (b : Option Nat) (token : List Char) : Option Nat :=
  let maxDist := aliasMaxDist al
  let dist := editDistance token al maxDist
  if dist ≤ maxDist then
    match b with
    | some prev => if dist < prev then some dist else some prev
    | none => some dist
  else b

/-- State of the alias loop for a single profile, tracking the matched flag
and the accumulated fuzzy best (only aliases up to a match contribute). -/
def scanAliases (tokens : List (List Char)) (lower : List Char) :
    List (List Char) → Option Nat → Bool × Option Nat
  | [], b => (false, b)
  | al :: rest, b =>
      if tokens.contains al then (true, b)
      else if 5 ≤ al.length ∧ al <:+: lower then (true, b)
      else scanAliases tokens lower rest (tokens.foldl (bestUpdTok al) b)

/-- Append an optional pending entry for `name` to the fuzzy map. -/
def optAppend (fuzzy : List (List Char × Nat)) (name : List Char) :
    Option Nat → List (List Char × Nat)
  | none => fuzzy
  | some d => fuzzy ++ [(name, d)]

theorem mapGet_absent (k : List Char) :
    ∀ m : List (List Char × Nat), k ∉ m.map Prod.fst → mapGet m k = none := by
  intro m
  induction m with
  | nil => intro _; rfl
  | cons e rest ih =>
    intro h
    simp only [List.map_cons, List.mem_cons] at h
    push_neg at h
    rw [mapGet, if_neg (Ne.symm h.1)]
    exact ih h.2

theorem mapGet_append_self (k : List Char) (v : Nat) :
    ∀ m : List (List Char × Nat), k ∉ m.map Prod.fst →
      mapGet (m ++ [(k, v)]) k = some v := by
  intro m
  induction m with
  | nil => intro _; simp [mapGet]
  | cons e rest ih =>
    intro h
    simp only [List.map_cons, List.mem_cons] at h
    push_neg at h
    rw [List.cons_append, mapGet, if_neg (Ne.symm h.1)]
    exact ih h.2

theorem mapSet_absent (k : List Char) (v : Nat) :
    ∀ m : List (List Char × Nat), k ∉ m.map Prod.fst →
      mapSet m k v = m ++ [(k, v)] := by
  intro m
  induction m with
  | nil => intro _; rfl
  | cons e rest ih =>
    intro h
    simp only [List.map_cons, List.mem_cons] at h
    push_neg at h
    rw [mapSet.eq_def]
    simp only
    rw [if_neg (Ne.symm h.1), ih h.2, List.cons_append]

theorem mapSet_append_self (k : List Char) (v w : Nat) :
    ∀ m : List (List Char × Nat), k ∉ m.map Prod.fst →
      mapSet (m ++ [(k, v)]) k w = m ++ [(k, w)] := by
  intro m
  induction m with
  | nil => intro _; simp [mapSet]
  | cons e rest ih =>
    intro h
    simp only [List.map_cons, List.mem_cons] at h
    push_neg at h
    rw [List.cons_append, mapSet.eq_def]
    simp only
    rw [if_neg (Ne.symm h.1), ih h.2, List.cons_append]

theorem fuzzyStep_optAppend (name al token : List Char)
    (fuzzy : List (List Char × Nat)) (b : Option Nat)
    (h : name ∉ fuzzy.map Prod.fst) :
    fuzzyStep name al (optAppend fuzzy name b) token =
      optAppend fuzzy name (bestUpdTok al b token) := by
  unfold fuzzyStep bestUpdTok
  by_cases hd : editDistance token al (aliasMaxDist al) ≤ aliasMaxDist al
  · simp only [if_pos hd]
    cases b with
    | none =>
      rw [optAppend, mapGet_absent name fuzzy h, mapSet_absent name _ fuzzy h]
      rfl
    | some prev =>
      rw [optAppend, mapGet_append_self name prev fuzzy h]
      by_cases hlt : editDistance token al (aliasMaxDist al) < prev
      · simp only [if_pos hlt]
        rw [mapSet_append_self name prev _ fuzzy h]
        rfl
      · simp only [if_neg hlt]
        rfl
  · simp only [if_neg hd]

theorem fuzzyScanTokens_optAppend (name al : List Char) :
    ∀ (tokens : List (List Char)) (fuzzy : List (List Char × Nat)) (b : Option Nat),
      name ∉ fuzzy.map Prod.fst →
      fuzzyScanTokens name al tokens (optAppend fuzzy name b) =
        optAppend fuzzy name (tokens.foldl (bestUpdTok al) b) := by
  intro tokens
  induction tokens with
  | nil => intro fuzzy b _; rfl
  | cons t ts ih =>
    intro fuzzy b h
    rw [fuzzyScanTokens, List.foldl_cons, fuzzyStep_optAppend name al t fuzzy b h,
      List.foldl_cons]
    exact ih fuzzy (bestUpdTok al b t) h

theorem list_contains_iff {l : List (List Char)} {a : List Char} :
    l.contains a = true ↔ a ∈ l := by
  simp [List.contains, List.elem_iff]

theorem addFound_absent {found : List (List Char)} {a : List Char} (h : a ∉ found) :
    addFound found a = found ++ [a] := by
  rw [addFound, if_neg]
  intro hc
  exact h (list_contains_iff.mp hc)

theorem aliasLoop_eq (name lower : List Char) (tokens : List (List Char)) :
    ∀ (als : List (List Char)) (found : List (List Char))
      (fuzzy : List (List Char × Nat)) (b : Option Nat),
      name ∉ fuzzy.map Prod.fst →
      aliasLoop name lower tokens als (found, optAppend fuzzy name b) =
        ((if (scanAliases tokens lower als b).1 then addFound found name else found),
          optAppend fuzzy name (scanAliases tokens lower als b).2) := by
  intro als
  induction als with
  | nil =>
    intro found fuzzy b _
    simp [aliasLoop, scanAliases]
  | cons al rest ih =>
    intro found fuzzy b h
    by_cases hc : al ∈ tokens
    · simp [aliasLoop, scanAliases, hc]
    · by_cases hs : 5 ≤ al.length ∧ al <:+: lower
      · simp [aliasLoop, scanAliases, hc, hs]
      · have hstep : aliasLoop name lower tokens (al :: rest) (found, optAppend fuzzy name b) =
            aliasLoop name lower tokens rest
              (found, fuzzyScanTokens name al tokens (optAppend fuzzy name b)) := by
          simp [aliasLoop, hc, hs]
        have hscan : scanAliases tokens lower (al :: rest) b =
            scanAliases tokens lower rest (tokens.foldl (bestUpdTok al) b) := by
          simp [scanAliases, hc, hs]
        rw [hstep, fuzzyScanTokens_optAppend name al tokens fuzzy b h, hscan]
        exact ih found fuzzy (tokens.foldl (bestUpdTok al) b) h

/-- Matched flag and accumulated best fuzzy distance for one profile. -/
def profileScan (tokens : List (List Char)) (lower username : List Char) :
    Bool × Option Nat :=
  scanAliases tokens lower (buildAliases username) none

/-- The exact/substring bucket: usernames of matched profiles, roster order. -/
def foundList (tokens : List (List Char)) (lower : List Char)
    (profiles : List BotProfile) : List (List Char) :=
  profiles.filterMap fun p =>
    if (profileScan tokens lower p.username).1 then some p.username else none

/-- All recorded fuzzy entries, roster order (an entry may belong to a
matched profile when an earlier alias recorded a distance). -/
def fuzzyList (tokens : List (List Char)) (lower : List Char)
    (profiles : List BotProfile) : List (List Char × Nat) :=
  profiles.filterMap fun p =>
    ((profileScan tokens lower p.username).2).map (fun d => (p.username, d))

theorem fold_profiles_eq (tokens : List (List Char)) (lower : List Char) :
    ∀ (profiles : List BotProfile) (found : List (List Char))
      (fuzzy : List (List Char × Nat)),
      (∀ p ∈ profiles, p.username ∉ found ∧ p.username ∉ fuzzy.map Prod.fst) →
      (profiles.map BotProfile.username).Nodup →
      profiles.foldl
          (fun st p => aliasLoop p.username lower tokens (buildAliases p.username) st)
          (found, fuzzy) =
        (found ++ foundList tokens lower profiles,
          fuzzy ++ fuzzyList tokens lower profiles) := by
  intro profiles
  induction profiles with
  | nil =>
    intro found fuzzy _ _
    simp [foundList, fuzzyList]
  | cons p ps ih =>
    intro found fuzzy hfresh hnd
    rw [List.foldl_cons]
    have hp := hfresh p (List.mem_cons_self p ps)
    have hloop := aliasLoop_eq p.username lower tokens (buildAliases p.username)
      found fuzzy none hp.2
    rw [show optAppend fuzzy p.username none = fuzzy from rfl] at hloop
    rw [show scanAliases tokens lower (buildAliases p.username) none =
      profileScan tokens lower p.username from rfl] at hloop
    rw [hloop]
    have hnotps : p.username ∉ ps.map BotProfile.username := by
      rw [List.map_cons, List.nodup_cons] at hnd
      exact hnd.1
    have hndps : (ps.map BotProfile.username).Nodup := by
      rw [List.map_cons, List.nodup_cons] at hnd
      exact hnd.2
    have hfreshps : ∀ q ∈ ps,
        q.username ∉ (if (profileScan tokens lower p.username).1
          then addFound found p.username else found) ∧
        q.username ∉ (optAppend fuzzy p.username
          (profileScan tokens lower p.username).2).map Prod.fst := by
      intro q hq
      have hqf := hfresh q (List.mem_cons_of_mem p hq)
      have hqne : q.username ≠ p.username := by
        intro he
        exact hnotps (he ▸ List.mem_map_of_mem BotProfile.username hq)
      constructor
      · by_cases hm : (profileScan tokens lower p.username).1
        · rw [if_pos hm, addFound_absent hp.1]
          simp only [List.mem_append, List.mem_singleton]
          push_neg
          exact ⟨hqf.1, hqne⟩
        · rw [if_neg hm]
          exact hqf.1
      · match hb : (profileScan tokens lower p.username).2 with
        | none => exact hqf.2
        | some d =>
          rw [optAppend]
          simp only [List.map_append, List.map_cons, List.map_nil, List.mem_append,
            List.mem_singleton]
          push_neg
          exact ⟨hqf.2, hqne⟩
    rw [ih _ _ hfreshps hndps]
    have hfoundcons : foundList tokens lower (p :: ps) =
        (if (profileScan tokens lower p.username).1 then [p.username] else []) ++
          foundList tokens lower ps := by
      rw [foundList, List.filterMap_cons]
      by_cases hm : (profileScan tokens lower p.username).1
      · rw [if_pos hm, if_pos hm]; rfl
      · rw [if_neg hm, if_neg hm]; rfl
    have hfuzzycons : fuzzyList tokens lower (p :: ps) =
        (match (profileScan tokens lower p.username).2 with
          | none => []
          | some d => [(p.username, d)]) ++ fuzzyList tokens lower ps := by
      rw [fuzzyList, List.filterMap_cons]
      match hb : (profileScan tokens lower p.username).2 with
      | none => rfl
      | some d => rfl
    rw [hfoundcons, hfuzzycons]
    refine Prod.ext ?_ ?_
    · simp only
      by_cases hm : (profileScan tokens lower p.username).1
      · rw [if_pos hm, if_pos hm, addFound_absent hp.1, List.append_assoc]
      · rw [if_neg hm, if_neg hm]
        rfl
    · simp only
      match hb : (profileScan tokens lower p.username).2 with
      | none => rw [optAppend]; simp
      | some d => rw [optAppend, List.append_assoc]

/-! ### Sorting and the final combination step -/

theorem mem_insertByDist (x a : List Char × Nat) :
    ∀ l, a ∈ insertByDist x l ↔ a = x ∨ a ∈ l := by
  intro l
  induction l with
  | nil => simp [insertByDist]
  | cons y ys ih =>
    rw [insertByDist]
    by_cases hxy : x.2 ≤ y.2
    · rw [if_pos hxy]
      simp only [List.mem_cons]
    · rw [if_neg hxy]
      simp only [List.mem_cons, ih]
      tauto

theorem insertByDist_of_le (x : List Char × Nat) :
    ∀ l : List (List Char × Nat), (∀ z ∈ l, x.2 ≤ z.2) → insertByDist x l = x :: l := by
  intro l hl
  match l with
  | [] => rfl
  | y :: ys => rw [insertByDist, if_pos (hl y (List.mem_cons_self y ys))]

theorem insertByDist_pairwise (x : List Char × Nat) :
    ∀ l, l.Pairwise (fun a b : List Char × Nat => a.2 ≤ b.2) →
      (insertByDist x l).Pairwise (fun a b => a.2 ≤ b.2) := by
  intro l
  induction l with
  | nil => intro _; simp [insertByDist]
  | cons y ys ih =>
    intro h
    rw [List.pairwise_cons] at h
    rw [insertByDist]
    by_cases hxy : x.2 ≤ y.2
    · rw [if_pos hxy]
      refine List.Pairwise.cons ?_ (List.Pairwise.cons h.1 h.2)
      intro z hz
      rw [List.mem_cons] at hz
      rcases hz with rfl | hz
      · exact hxy
      · exact le_trans hxy (h.1 z hz)
    · rw [if_neg hxy]
      refine List.Pairwise.cons ?_ (ih h.2)
      intro z hz
      rw [mem_insertByDist] at hz
      rcases hz with rfl | hz
      · omega
      · exact h.1 z hz

theorem sortByDist_pairwise :
    ∀ l, (sortByDist l).Pairwise (fun a b : List Char × Nat => a.2 ≤ b.2) := by
  intro l
  induction l with
  | nil => simp [sortByDist]
  | cons x xs ih => exact insertByDist_pairwise x _ ih

theorem insertByDist_perm (x : List Char × Nat) :
    ∀ l, (insertByDist x l).Perm (x :: l) := by
  intro l
  induction l with
  | nil => rfl
  | cons y ys ih =>
    rw [insertByDist]
    by_cases hxy : x.2 ≤ y.2
    · rw [if_pos hxy]
    · rw [if_neg hxy]
      exact (ih.cons y).trans (List.Perm.swap x y ys)

theorem sortByDist_perm : ∀ l, (sortByDist l).Perm l := by
  intro l
  induction l with
  | nil => rfl
  | cons x xs ih => exact (insertByDist_perm x (sortByDist xs)).trans (ih.cons x)

theorem filter_insertByDist (q : List Char × Nat → Bool) (x : List Char × Nat) :
    ∀ l, l.Pairwise (fun a b : List Char × Nat => a.2 ≤ b.2) →
      (insertByDist x l).filter q =
        if q x then insertByDist x (l.filter q) else l.filter q := by
  intro l
  induction l with
  | nil =>
    intro _
    cases hq : q x <;> simp [insertByDist, List.filter, hq]
  | cons y ys ih =>
    intro h
    rw [List.pairwise_cons] at h
    rw [insertByDist]
    by_cases hxy : x.2 ≤ y.2
    · rw [if_pos hxy]
      cases hq : q x with
      | false => simp [List.filter, hq]
      | true =>
        have hle : ∀ z ∈ (y :: ys).filter q, x.2 ≤ z.2 := by
          intro z hz
          rw [List.mem_filter] at hz
          rcases List.mem_cons.mp hz.1 with rfl | hzz
          · exact hxy
          · exact le_trans hxy (h.1 z hzz)
        rw [List.filter_cons_of_pos hq, insertByDist_of_le x ((y :: ys).filter q) hle]
        simp
    · rw [if_neg hxy]
      cases hqy : q y with
      | true =>
        rw [List.filter_cons_of_pos hqy, List.filter_cons_of_pos hqy, ih h.2]
        cases hq : q x with
        | false => simp [hq]
        | true => simp [hq, insertByDist, if_neg hxy]
      | false =>
        rw [List.filter_cons_of_neg (by simp [hqy]),
          List.filter_cons_of_neg (by simp [hqy]), ih h.2]

theorem filter_sortByDist (q : List Char × Nat → Bool) :
    ∀ l, (sortByDist l).filter q = sortByDist (l.filter q) := by
  intro l
  induction l with
  | nil => rfl
  | cons x xs ih =>
    rw [sortByDist, filter_insertByDist q x _ (sortByDist_pairwise xs), ih]
    cases hq : q x with
    | true =>
      rw [List.filter_cons_of_pos hq, sortByDist]
      simp
    | false =>
      rw [List.filter_cons_of_neg (by simp [hq])]
      simp

theorem foldl_push_eq (found : List (List Char)) :
    ∀ (l : List (List Char × Nat)) (r0 : List (List Char)),
      l.foldl (fun r nd => if found.contains nd.1 then r else r ++ [nd.1]) r0 =
        r0 ++ (l.filter (fun nd => !(found.contains nd.1))).map Prod.fst := by
  intro l
  induction l with
  | nil => intro r0; simp
  | cons nd rest ih =>
    intro r0
    rw [List.foldl_cons]
    cases hc : found.contains nd.1 with
    | true =>
      rw [if_pos rfl, ih r0, List.filter_cons_of_neg (by simp [list_contains_iff.mp hc])]
    | false =>
      have hnm : nd.1 ∉ found := by
        intro hmem
        rw [list_contains_iff.mpr hmem] at hc
        exact absurd hc (by simp)
      rw [if_neg (by simp), ih (r0 ++ [nd.1]),
        List.filter_cons_of_pos (by simp [hnm]), List.map_cons, List.append_assoc,
        List.singleton_append]

/-! ### From the operational scan to the claim-side description -/

theorem scanAliases_fst (tokens : List (List Char)) (lower : List Char) :
    ∀ (als : List (List Char)) (b : Option Nat),
      (scanAliases tokens lower als b).1 =
        als.any fun al =>
          tokens.contains al || (decide (5 ≤ al.length) && decide (al <:+: lower)) := by
  intro als
  induction als with
  | nil => intro b; simp [scanAliases]
  | cons al rest ih =>
    intro b
    by_cases hc : al ∈ tokens
    · simp [scanAliases, hc]
    · by_cases hs : 5 ≤ al.length ∧ al <:+: lower
      · simp [scanAliases, hc, hs]
      · rw [List.any_cons]
        have h1 : (tokens.contains al || (decide (5 ≤ al.length) && decide (al <:+: lower)))
            = false := by
          rw [Bool.or_eq_false_iff]
          constructor
          · cases hcc : tokens.contains al with
            | false => rfl
            | true => exact absurd (list_contains_iff.mp hcc) hc
          · rw [Bool.and_eq_false_iff]
            by_cases h5 : 5 ≤ al.length
            · right
              simp only [decide_eq_false_iff_not]
              intro hinf
              exact hs ⟨h5, hinf⟩
            · left
              simp [h5]
        rw [h1, Bool.false_or]
        have hstep : scanAliases tokens lower (al :: rest) b =
            scanAliases tokens lower rest (tokens.foldl (bestUpdTok al) b) := by
          simp [scanAliases, hc, hs]
        rw [hstep]
        exact ih (tokens.foldl (bestUpdTok al) b)

theorem scanAliases_snd (tokens : List (List Char)) (lower : List Char) :
    ∀ (als : List (List Char)) (b : Option Nat),
      (scanAliases tokens lower als b).1 = false →
      (scanAliases tokens lower als b).2 =
        als.foldl (fun acc al => tokens.foldl (bestUpdTok al) acc) b := by
  intro als
  induction als with
  | nil => intro b _; simp [scanAliases]
  | cons al rest ih =>
    intro b h
    by_cases hc : al ∈ tokens
    · rw [show scanAliases tokens lower (al :: rest) b = (true, b) by
        simp [scanAliases, hc]] at h
      exact absurd h (by simp)
    · by_cases hs : 5 ≤ al.length ∧ al <:+: lower
      · rw [show scanAliases tokens lower (al :: rest) b = (true, b) by
          simp [scanAliases, hc, hs]] at h
        exact absurd h (by simp)
      · have hstep : scanAliases tokens lower (al :: rest) b =
            scanAliases tokens lower rest (tokens.foldl (bestUpdTok al) b) := by
          simp [scanAliases, hc, hs]
        rw [hstep] at h ⊢
        rw [List.foldl_cons]
        exact ih (tokens.foldl (bestUpdTok al) b) h

theorem optMin_assoc (a b c : Option Nat) :
    optMin (optMin a b) c = optMin a (optMin b c) := by
  cases a <;> cases b <;> cases c <;> simp [optMin, Nat.min_assoc]

theorem optMin_none_right (a : Option Nat) : optMin a none = a := by
  cases a <;> rfl

theorem foldl_optMin_shift (f : List Char → Option Nat) :
    ∀ (l : List (List Char)) (b : Option Nat),
      l.foldl (fun acc t => optMin acc (f t)) b = optMin b (bestOver f l) := by
  intro l
  induction l with
  | nil => intro b; rw [List.foldl_nil, bestOver, List.foldl_nil, optMin_none_right]
  | cons t ts ih =>
    intro b
    rw [List.foldl_cons, ih (optMin b (f t)), optMin_assoc]
    suffices h2 : optMin (f t) (bestOver f ts) = bestOver f (t :: ts) by rw [h2]
    rw [show bestOver f (t :: ts) = ts.foldl (fun acc t => optMin acc (f t)) (f t) from rfl,
      ih (f t)]

theorem bestUpdTok_eq (al : List Char) (b : Option Nat) (t : List Char) :
    bestUpdTok al b t = optMin b (tokDist al t) := by
  cases b with
  | none => simp [bestUpdTok, tokDist, optMin]
  | some prev =>
    simp only [bestUpdTok, tokDist]
    by_cases hd : editDistance t al (aliasMaxDist al) ≤ aliasMaxDist al
    · simp only [if_pos hd]
      rw [show optMin (some prev) (some (editDistance t al (aliasMaxDist al))) =
        some (min prev (editDistance t al (aliasMaxDist al))) from rfl]
      by_cases hlt : editDistance t al (aliasMaxDist al) < prev
      · rw [if_pos hlt]
        congr 1
        omega
      · rw [if_neg hlt]
        congr 1
        omega
    · simp only [if_neg hd]
      rfl

theorem tokens_foldl_bestUpdTok (al : List Char) (tokens : List (List Char))
    (b : Option Nat) :
    tokens.foldl (bestUpdTok al) b = optMin b (bestOver (tokDist al) tokens) := by
  have hfun : bestUpdTok al = fun acc t => optMin acc (tokDist al t) := by
    funext acc t
    exact bestUpdTok_eq al acc t
  rw [hfun]
  exact foldl_optMin_shift _ tokens b

/-- Claim-side predicate: the profile is matched by an exact token equal to
one of its aliases, or by an alias of length ≥ 5 occurring as a substring of
the full lowercased text. -/
def exactSubMatch (message username : List Char) : Bool :=
  (buildAliases username).any fun al =>
    (tokenize (message.map Char.toLower)).contains al ||
      (decide (5 ≤ al.length) && decide (al <:+: message.map Char.toLower))

/-- Claim-side best fuzzy distance: the minimum, over the profile's aliases
and the message's tokens, of the bounded alias-to-token edit distances that
fall within the alias's threshold (`none` when no pair qualifies). -/
def bestFuzzyDist (message username : List Char) : Option Nat :=
  bestOver (fun al => bestOver (tokDist al) (tokenize (message.map Char.toLower)))
    (buildAliases username)

theorem profileScan_fst (message username : List Char) :
    (profileScan (tokenize (message.map Char.toLower)) (message.map Char.toLower)
      username).1 = exactSubMatch message username := by
  rw [profileScan, scanAliases_fst, exactSubMatch]

theorem profileScan_snd (message username : List Char)
    (h : (profileScan (tokenize (message.map Char.toLower)) (message.map Char.toLower)
      username).1 = false) :
    (profileScan (tokenize (message.map Char.toLower)) (message.map Char.toLower)
      username).2 = bestFuzzyDist message username := by
  rw [profileScan] at h ⊢
  rw [scanAliases_snd _ _ _ none h]
  have hfun : (fun (acc : Option Nat) al =>
      (tokenize (message.map Char.toLower)).foldl (bestUpdTok al) acc) =
      fun acc al => optMin acc (bestOver (tokDist al)
        (tokenize (message.map Char.toLower))) := by
    funext acc al
    exact tokens_foldl_bestUpdTok al _ acc
  rw [hfun, bestFuzzyDist, ← bestOver]

theorem contains_foundList (tokens : List (List Char)) (lower : List Char)
    (profiles : List BotProfile) (p : BotProfile) (hp : p ∈ profiles) :
    (foundList tokens lower profiles).contains p.username =
      (profileScan tokens lower p.username).1 := by
  cases hm : (profileScan tokens lower p.username).1 with
  | true =>
    refine list_contains_iff.mpr ?_
    refine List.mem_filterMap.mpr ⟨p, hp, ?_⟩
    rw [hm]
    simp
  | false =>
    have hnm : p.username ∉ foundList tokens lower profiles := by
      intro hmem
      obtain ⟨q, hq, hentry⟩ := List.mem_filterMap.mp hmem
      by_cases hqm : (profileScan tokens lower q.username).1
      · rw [if_pos hqm] at hentry
        have he : q.username = p.username := Option.some.inj hentry
        rw [he] at hqm
        rw [hm] at hqm
        exact absurd hqm (by simp)
      · rw [if_neg hqm] at hentry
        exact Option.noConfusion hentry
    cases hcont : (foundList tokens lower profiles).contains p.username with
    | false => rfl
    | true => exact absurd (list_contains_iff.mp hcont) hnm

theorem filter_fuzzyList (tokens : List (List Char)) (lower : List Char)
    (F : List (List Char)) :
    ∀ profiles : List BotProfile,
      (∀ p ∈ profiles, F.contains p.username = (profileScan tokens lower p.username).1) →
      (fuzzyList tokens lower profiles).filter (fun nd => !(F.contains nd.1)) =
        profiles.filterMap (fun p =>
          if (profileScan tokens lower p.username).1 then none
          else ((profileScan tokens lower p.username).2).map (fun d => (p.username, d))) := by
  intro profiles
  induction profiles with
  | nil => intro _; rfl
  | cons p ps ih =>
    intro hF
    have hFp := hF p (List.mem_cons_self p ps)
    have hFps : ∀ q ∈ ps, F.contains q.username = (profileScan tokens lower q.username).1 :=
      fun q hq => hF q (List.mem_cons_of_mem p hq)
    cases hb : (profileScan tokens lower p.username).2 with
    | none =>
      have h1 : (fun q : BotProfile => Option.map (fun d => (q.username, d))
          (profileScan tokens lower q.username).2) p = none := by
        simp only
        rw [hb]
        rfl
      have h2 : (fun q : BotProfile => if (profileScan tokens lower q.username).1 = true
          then none
          else Option.map (fun d => (q.username, d)) (profileScan tokens lower q.username).2)
          p = none := by
        simp only
        rw [hb]
        split <;> rfl
      have hunfold : fuzzyList tokens lower (p :: ps) =
          List.filterMap (fun q : BotProfile => Option.map (fun d => (q.username, d))
            (profileScan tokens lower q.username).2) (p :: ps) := rfl
      rw [hunfold,
        @List.filterMap_cons_none BotProfile (List Char × Nat)
          (fun q : BotProfile => Option.map (fun d => (q.username, d))
            (profileScan tokens lower q.username).2) p ps h1,
        @List.filterMap_cons_none BotProfile (List Char × Nat)
          (fun q : BotProfile => if (profileScan tokens lower q.username).1 = true then none
            else Option.map (fun d => (q.username, d))
              (profileScan tokens lower q.username).2) p ps h2]
      exact ih hFps
    | some d =>
      have h1 : (fun q : BotProfile => Option.map (fun d' => (q.username, d'))
          (profileScan tokens lower q.username).2) p = some (p.username, d) := by
        simp only
        rw [hb]
        rfl
      cases hm : (profileScan tokens lower p.username).1 with
      | true =>
        have h2 : (fun q : BotProfile => if (profileScan tokens lower q.username).1 = true
            then none
            else Option.map (fun d' => (q.username, d'))
              (profileScan tokens lower q.username).2) p = none := by
          simp only
          rw [hm]
          simp
        have hunfold : fuzzyList tokens lower (p :: ps) =
            List.filterMap (fun q : BotProfile => Option.map (fun d' => (q.username, d'))
              (profileScan tokens lower q.username).2) (p :: ps) := rfl
        rw [hunfold,
          @List.filterMap_cons_some BotProfile (List Char × Nat)
            (fun q : BotProfile => Option.map (fun d' => (q.username, d'))
              (profileScan tokens lower q.username).2) p ps (p.username, d) h1,
          @List.filterMap_cons_none BotProfile (List Char × Nat)
            (fun q : BotProfile => if (profileScan tokens lower q.username).1 = true then none
              else Option.map (fun d' => (q.username, d'))
                (profileScan tokens lower q.username).2) p ps h2]
        have hmemF : p.username ∈ F := list_contains_iff.mp (hFp.trans hm)
        rw [List.filter_cons_of_neg (by simp [hmemF])]
        exact ih hFps
      | false =>
        have h2 : (fun q : BotProfile => if (profileScan tokens lower q.username).1 = true
            then none
            else Option.map (fun d' => (q.username, d'))
              (profileScan tokens lower q.username).2) p = some (p.username, d) := by
          simp only
          rw [hm, hb]
          simp
        have hunfold : fuzzyList tokens lower (p :: ps) =
            List.filterMap (fun q : BotProfile => Option.map (fun d' => (q.username, d'))
              (profileScan tokens lower q.username).2) (p :: ps) := rfl
        rw [hunfold,
          @List.filterMap_cons_some BotProfile (List Char × Nat)
            (fun q : BotProfile => Option.map (fun d' => (q.username, d'))
              (profileScan tokens lower q.username).2) p ps (p.username, d) h1,
          @List.filterMap_cons_some BotProfile (List Char × Nat)
            (fun q : BotProfile => if (profileScan tokens lower q.username).1 = true then none
              else Option.map (fun d' => (q.username, d'))
                (profileScan tokens lower q.username).2) p ps (p.username, d) h2]
        have hnmF : p.username ∉ F := by
          intro hmem
          have hcf := hFp.trans hm
          rw [list_contains_iff.mpr hmem] at hcf
          exact absurd hcf (by simp)
        rw [List.filter_cons_of_pos (by simp [hnmF])]
        exact congrArg (List.cons (p.username, d)) (ih hFps)

theorem filterMap_if_eq (f : BotProfile → Bool) :
    ∀ profiles : List BotProfile,
      profiles.filterMap (fun p => if f p then some p.username else none) =
        (profiles.filter f).map BotProfile.username := by
  intro profiles
  induction profiles with
  | nil => rfl
  | cons p ps ih =>
    rw [List.filterMap_cons]
    cases hf : f p with
    | true =>
      rw [if_pos rfl, List.filter_cons_of_pos hf, List.map_cons, ih]
    | false =>
      rw [if_neg (by simp), List.filter_cons_of_neg (by simp [hf]), ih]

/-- Master characterisation of `findMentionedBots` (for rosters with distinct
usernames): the exact/substring matches in roster order, followed by the
fuzzy-only matches stably sorted by ascending best distance. -/
theorem findMentionedBots_eq (message : List Char) (profiles : List BotProfile)
    (hnd : (profiles.map BotProfile.username).Nodup) :
    findMentionedBots message profiles =
      ((profiles.filter fun p => exactSubMatch message p.username).map BotProfile.username)
        ++ (sortByDist (profiles.filterMap fun p =>
              if exactSubMatch message p.username then none
              else (bestFuzzyDist message p.username).map fun d => (p.username, d))).map
            Prod.fst := by
  have hfold := fold_profiles_eq (tokenize (message.map Char.toLower))
    (message.map Char.toLower) profiles [] [] (by intro p _; simp) hnd
  simp only [findMentionedBots]
  rw [hfold]
  simp only [List.nil_append]
  rw [foldl_push_eq (foundList (tokenize (message.map Char.toLower))
      (message.map Char.toLower) profiles)
    (sortByDist (fuzzyList (tokenize (message.map Char.toLower))
      (message.map Char.toLower) profiles)) [],
    List.nil_append,
    filter_sortByDist,
    filter_fuzzyList (tokenize (message.map Char.toLower)) (message.map Char.toLower)
      (foundList (tokenize (message.map Char.toLower)) (message.map Char.toLower) profiles)
      profiles
      (fun p hp => contains_foundList (tokenize (message.map Char.toLower))
        (message.map Char.toLower) profiles p hp)]
  have hfun2 : (fun p : BotProfile =>
      if (profileScan (tokenize (message.map Char.toLower)) (message.map Char.toLower)
          p.username).1 = true then none
      else ((profileScan (tokenize (message.map Char.toLower)) (message.map Char.toLower)
          p.username).2).map (fun d => (p.username, d))) =
      (fun p : BotProfile =>
        if exactSubMatch message p.username = true then none
        else (bestFuzzyDist message p.username).map fun d => (p.username, d)) := by
    funext p
    by_cases hm : (profileScan (tokenize (message.map Char.toLower))
        (message.map Char.toLower) p.username).1
    · rw [if_pos hm, if_pos]
      rw [← profileScan_fst message p.username]
      exact hm
    · rw [if_neg hm, if_neg, profileScan_snd message p.username (by simpa using hm)]
      rw [← profileScan_fst message p.username]
      exact hm
  rw [hfun2]
  have hfound : foundList (tokenize (message.map Char.toLower))
      (message.map Char.toLower) profiles =
      (profiles.filter fun p => exactSubMatch message p.username).map BotProfile.username := by
    rw [foundList, filterMap_if_eq (fun p => (profileScan (tokenize
      (message.map Char.toLower)) (message.map Char.toLower) p.username).1)]
    have hfun3 : (fun p : BotProfile => (profileScan (tokenize (message.map Char.toLower))
        (message.map Char.toLower) p.username).1) =
        fun p : BotProfile => exactSubMatch message p.username :=
      funext fun p => profileScan_fst message p.username
    rw [hfun3]
  rw [hfound]

theorem fuzzyOnly_fst_sublist (message : List Char) :
    ∀ profiles : List BotProfile,
      ((profiles.filterMap fun p =>
          if exactSubMatch message p.username then none
          else (bestFuzzyDist message p.username).map fun d => (p.username, d)).map
        Prod.fst).Sublist (profiles.map BotProfile.username) := by
  intro profiles
  induction profiles with
  | nil => simp
  | cons p ps ih =>
    rw [List.filterMap_cons, List.map_cons]
    by_cases hm : exactSubMatch message p.username
    · rw [if_pos hm]
      exact ih.cons p.username
    · rw [if_neg hm]
      cases hb : bestFuzzyDist message p.username with
      | none =>
        rw [show Option.map (fun d => (p.username, d)) (none : Option Nat) = none from rfl]
        exact ih.cons p.username
      | some d =>
        rw [show Option.map (fun d' => (p.username, d')) (some d) = some (p.username, d)
          from rfl]
        exact ih.cons₂ p.username

theorem findMentionedBots_nodup (message : List Char) (profiles : List BotProfile)
    (hnd : (profiles.map BotProfile.username).Nodup) :
    (findMentionedBots message profiles).Nodup := by
  rw [findMentionedBots_eq message profiles hnd]
  refine List.Nodup.append ?_ ?_ ?_
  · exact hnd.sublist ((List.filter_sublist profiles).map BotProfile.username)
  · refine (((sortByDist_perm _).map Prod.fst).symm.nodup) ?_
    exact hnd.sublist (fuzzyOnly_fst_sublist message profiles)
  · intro a haA haB
    rw [List.mem_map] at haA
    obtain ⟨p, hpA, hpa⟩ := haA
    rw [List.mem_filter] at hpA
    rw [List.mem_map] at haB
    obtain ⟨nd, hndB, hnda⟩ := haB
    have hndL := ((sortByDist_perm _).mem_iff).mp hndB
    rw [List.mem_filterMap] at hndL
    obtain ⟨q, _, hq⟩ := hndL
    by_cases hqm : exactSubMatch message q.username
    · rw [if_pos hqm] at hq
      exact Option.noConfusion hq
    · rw [if_neg hqm] at hq
      cases hb : bestFuzzyDist message q.username with
      | none => rw [hb] at hq; exact Option.noConfusion hq
      | some d =>
        rw [hb] at hq
        have : (q.username, d) = nd := Option.some.inj hq
        have hqa : q.username = a := by rw [← this] at hnda; exact hnda
        rw [← hpa] at hqa
        rw [hqa] at hqm
        exact hqm (by simpa using hpA.2)

theorem scanAliases_nil_tokens :
    ∀ (als : List (List Char)) (b : Option Nat),
      scanAliases [] [] als b = (false, b) := by
  intro als
  induction als with
  | nil => intro b; rfl
  | cons al rest ih =>
    intro b
    have hnc : al ∉ ([] : List (List Char)) := List.not_mem_nil al
    have hns : ¬(5 ≤ al.length ∧ al <:+: ([] : List Char)) := by
      rintro ⟨h5, hinf⟩
      rw [List.infix_nil] at hinf
      rw [hinf] at h5
      simp at h5
    simp only [scanAliases, hnc, hns, if_false, List.foldl_nil]
    exact ih b

theorem aliasLoop_nil_tokens (name : List Char) :
    ∀ (als : List (List Char)) (st : List (List Char) × List (List Char × Nat)),
      aliasLoop name [] [] als st = st := by
  intro als
  induction als with
  | nil => intro st; rfl
  | cons al rest ih =>
    intro st
    obtain ⟨found, fuzzy⟩ := st
    have hnc : al ∉ ([] : List (List Char)) := List.not_mem_nil al
    have hns : ¬(5 ≤ al.length ∧ al <:+: ([] : List Char)) := by
      rintro ⟨h5, hinf⟩
      rw [List.infix_nil] at hinf
      rw [hinf] at h5
      simp at h5
    simp only [aliasLoop, hnc, hns, if_false]
    rw [show fuzzyScanTokens name al [] fuzzy = fuzzy from rfl]
    exact ih (found, fuzzy)

/-- Empty text yields no matches. -/
theorem findMentionedBots_nil (profiles : List BotProfile) :
    findMentionedBots [] profiles = [] := by
  simp only [findMentionedBots]
  rw [show List.map Char.toLower ([] : List Char) = [] from rfl,
    show tokenize ([] : List Char) = [] from rfl]
  have hfold : profiles.foldl
      (fun st p => aliasLoop p.username [] [] (buildAliases p.username) st)
      (([], []) : List (List Char) × List (List Char × Nat)) = ([], []) := by
    induction profiles with
    | nil => rfl
    | cons p ps ih =>
      rw [List.foldl_cons, aliasLoop_nil_tokens p.username (buildAliases p.username) ([], [])]
      exact ih
  rw [hfold]
  rfl

/-- The full content of the mention-resolution claim for one message and
roster: the result lists the exact/substring-matched entities first in
roster order, then the fuzzy-only entities stably sorted by ascending best
distance; each entity appears at most once; the fuzzy bucket is sorted
ascending; and empty text yields no matches. -/
def mentionResolutionSpec (message : List Char) (profiles : List BotProfile) : Prop :=
  findMentionedBots message profiles =
      ((profiles.filter fun p => exactSubMatch message p.username).map BotProfile.username)
        ++ (sortByDist (profiles.filterMap fun p =>
              if exactSubMatch message p.username then none
              else (bestFuzzyDist message p.username).map fun d => (p.username, d))).map
            Prod.fst
    ∧ (findMentionedBots message profiles).Nodup
    ∧ (sortByDist (profiles.filterMap fun p =>
        if exactSubMatch message p.username then none
        else (bestFuzzyDist message p.username).map fun d => (p.username, d))).Pairwise
        (fun a b => a.2 ≤ b.2)
    ∧ findMentionedBots [] profiles = []

/-- **C3**: for every message text and roster (with distinct usernames),
`findMentionedBots` returns each matched entity at most once: first all
entities matched by an exact token equal to one of their aliases or by an
alias of length ≥ 5 occurring as a substring of the full lowercased text,
in roster order; then the entities matched only fuzzily (best
alias-to-token edit distance within threshold 1 for aliases of length ≤ 4,
2 otherwise), in ascending order of that best distance; empty text yields
no matches. -/
theorem claim_C3_mention_resolution (message : List Char) (profiles : List BotProfile)
    (hnd : (profiles.map BotProfile.username).Nodup) :
    mentionResolutionSpec message profiles :=
  ⟨findMentionedBots_eq message profiles hnd,
   findMentionedBots_nodup message profiles hnd,
   sortByDist_pairwise _,
   findMentionedBots_nil profiles⟩

theorem claim_C3_mention_resolution_witness :
    (([⟨"Steve_Builder".toList⟩, ⟨"Luna_Moth".toList⟩] : List BotProfile).map
      BotProfile.username).Nodup
    ∧ mentionResolutionSpec "hey stevebilder and luna".toList
        [⟨"Steve_Builder".toList⟩, ⟨"Luna_Moth".toList⟩] :=
  ⟨by decide,
   claim_C3_mention_resolution "hey stevebilder and luna".toList
     [⟨"Steve_Builder".toList⟩, ⟨"Luna_Moth".toList⟩] (by decide)⟩

/-- **C4**: `editDistance(a, b, maxDist)` equals the true Levenshtein
distance whenever that distance is ≤ `maxDist`, and returns a value
strictly greater than `maxDist` whenever the true distance exceeds
`maxDist` — the early bail-outs on length difference and on the running
row minimum never produce a false positive or change the answer within the
bound; in particular `editDistance("stevebilder", "stevebuilder", 2) ≤ 2`. -/
theorem claim_C4_editDistance_bounded (a b : List Char) (maxDist : Nat) :
    (lev a b ≤ maxDist → editDistance a b maxDist = lev a b)
    ∧ (maxDist < lev a b → maxDist < editDistance a b maxDist)
    ∧ editDistance "stevebilder".toList "stevebuilder".toList 2 ≤ 2 :=
  ⟨(editDistance_correct a b maxDist).1, (editDistance_correct a b maxDist).2,
   by decide⟩

theorem claim_C4_editDistance_bounded_witness :
    (lev "ab".toList "b".toList ≤ 1 ∧
      editDistance "ab".toList "b".toList 1 = lev "ab".toList "b".toList)
    ∧ (2 < lev "abc".toList "xyzw".toList ∧
      2 < editDistance "abc".toList "xyzw".toList 2) :=
  ⟨⟨by decide, (claim_C4_editDistance_bounded "ab".toList "b".toList 1).1 (by decide)⟩,
   ⟨by decide, (claim_C4_editDistance_bounded "abc".toList "xyzw".toList 2).2.1 (by decide)⟩⟩

/-! ## Conversation coordinator state (conversation.js / `ConversationManager`
as instantiated in index.js) -/

/-- A shared-history entry (`{ role: 'user', content, timestamp }`). -/
structure HistEntry where
  content : List Char
  timestamp : Nat
deriving DecidableEq, Repr

/-- The coordinator state touched by the verified claims: the shared chat
history with its compacted summary, and the rolling rate-window timestamps
with their configuration. -/
structure CmState where
  chatHistory : List HistEntry
  compactSummary : List Char
  messageTimestamps : List Nat
  windowMs : Nat
  maxInWindow : Nat
deriving DecidableEq, Repr

/-- `this.maxHistory = 20`. -/
def maxHistory : Nat := 20

/-- `this.compactThreshold = 10`. -/
def compactThreshold : Nat := 10

/-- `const keep = 6` in `compactHistory`. -/
def historyKeep : Nat := 6

/-- The ~500 character cap on the compacted summary. -/
def summaryCap : Nat := 500

/-- `list.join(' | ')`. -/
def joinBar : List (List Char) → List Char
  | [] => []
  | [x] => x
  | x :: xs => x ++ " | ".toList ++ joinBar xs

/-- The summary of the entries removed from the live history by one
`compactHistory` call: `toCompact.map(h => h.content).join(' | ')`. -/
def removedSummary (st : CmState) : List Char :=
  joinBar ((st.chatHistory.take (st.chatHistory.length - historyKeep)).map HistEntry.content)

/-- The concatenated summary before the length cap:
`this.compactSummary ? this.compactSummary + ' | ' + summary : summary`. -/
def combinedSummary (st : CmState) : List Char :=
  if st.compactSummary = [] then removedSummary st
  else st.compactSummary ++ " | ".toList ++ removedSummary st

/-- `if (s.length > 500) s = s.slice(-500)`: keep only the newest 500
characters, i.e. truncate from the oldest end. -/
def truncSummary (s : List Char) : List Char :=
  if summaryCap < s.length then s.drop (s.length - summaryCap) else s

/-- `compactHistory()` from conversation.js: keep the most recent 6 entries,
fold the rest into the rolling summary, cap the summary at ~500 chars. -/
def compactHistory (st : CmState) : CmState :=
  { st with
    chatHistory := st.chatHistory.drop (st.chatHistory.length - historyKeep),
    compactSummary := truncSummary (combinedSummary st) }

/-- `addMessage(username, message)` from conversation.js: push the entry,
shift when over `maxHistory`, compact when over `compactThreshold`. -/
def addMessage (st : CmState) (username message : List Char) (now : Nat) : CmState :=
  let entry : HistEntry := ⟨"<".toList ++ username ++ "> ".toList ++ message, now⟩
  let st1 := { st with chatHistory := st.chatHistory ++ [entry] }
  let st2 := if maxHistory < st1.chatHistory.length
    then { st1 with chatHistory := st1.chatHistory.tail } else st1
  if compactThreshold < st2.chatHistory.length then compactHistory st2 else st2

/-- The rate window's pruning step: keep the timestamps `t` with
`now - t < windowMs`. -/
def pruneWindow (ts : List Nat) (now windowMs : Nat) : List Nat :=
  ts.filter (fun t => now - t < windowMs)

/-- `isRateLimited()` from conversation.js: prune expired timestamps in
place, then compare the count against the configured maximum. -/
def isRateLimited (st : CmState) (now : Nat) : CmState × Bool :=
  let pruned := pruneWindow st.messageTimestamps now st.windowMs
  ({ st with messageTimestamps := pruned }, decide (st.maxInWindow ≤ pruned.length))

/-- `recordBotMessage()` from conversation.js. -/
def recordBotMessage (st : CmState) (now : Nat) : CmState :=
  { st with messageTimestamps := st.messageTimestamps ++ [now] }

/-! ## Per-entity memory (conversation.js `addMemory` / `_compactMemory`) -/

/-- A per-entity memory record: `{ summary, recent[] }`. -/
structure MemRecord where
  summary : List Char
  recent : List (List Char)
deriving DecidableEq, Repr

/-- `this.memoryMaxRecent = 15`. -/
def memoryMaxRecent : Nat := 15

/-- `this.memoryKeepAfterCompact = 5`. -/
def memoryKeepAfterCompact : Nat := 5

/-- `addMemory(username, entry)`: push the entry; the returned flag records
whether `_compactMemory` is triggered (`recent.length >= memoryMaxRecent`). -/
def addMemory (mem : MemRecord) (entry : List Char) : MemRecord × Bool :=
  let mem' := { mem with recent := mem.recent ++ [entry] }
  (mem', decide (memoryMaxRecent ≤ mem'.recent.length))

/-- `_compactMemory(username)`: re-check the threshold, split `recent` into
the oldest entries (summarised via the completion collaborator) and the
newest `memoryKeepAfterCompact` kept verbatim.  The collaborator's reply is
external input: `some s` for a successful call whose content is `s`, `none`
when the call throws (the `catch` leaves the record unchanged). -/
def compactMemory (mem : MemRecord) (llmReply : Option (List Char)) : MemRecord :=
  if mem.recent.length < memoryMaxRecent then mem
  else
    match llmReply with
    | none => mem
    | some s =>
        { summary := s,
          recent := mem.recent.drop (mem.recent.length - memoryKeepAfterCompact) }

/-! ## Orchestrator decision (conversation.js `orchestrate`) -/

/-- The decision tail of `orchestrate`, applied to the completion
collaborator's (trimmed) reply; `none` models a completion-call error
(the `catch` branch returns `null`), and an out-of-roster pick returns
`null` as well.  `"server:".length = 7`. -/
def orchestratePick (profiles : List BotProfile) (completion : Option (List Char)) :
    Option (List Char × Bool) :=
  match completion with
  | none => none
  | some pick =>
      let validNames := profiles.map BotProfile.username
      let serverQuestion := "server:".toList.isPrefixOf pick
      let botName := if "server:".toList.isPrefixOf pick then pick.drop 7 else pick
      if validNames.contains botName then some (botName, serverQuestion) else none

/-- Claim-side description of the prefix handling: the picked name after
stripping an optional `server:` prefix, and the server-question flag. -/
def stripServer (pick : List Char) : List Char × Bool :=
  if "server:".toList.isPrefixOf pick then (pick.drop 7, true) else (pick, false)

/-! ## ChatBot transport sends (bot.js `ChatBot.chat`) -/

/-- `s.trim()`: strip JS whitespace from both ends. -/
def trimWs (l : List Char) : List Char :=
  ((l.dropWhile (fun c => wsChars.contains c)).reverse.dropWhile
    (fun c => wsChars.contains c)).reverse

/-- `message.split('\n').map(l => l.trim()).filter(Boolean)`: the non-empty
trimmed lines of a message (empty pieces are removed by the filter either
way, so runs of newlines collapse). -/
def chatLines (message : List Char) : List (List Char) :=
  ((splitRuns (· == '\n') [] message).map trimWs).filter (· ≠ [])

/-- The connection/profile facts about a bot that `dispatchResponse` and
`chat` consult. -/
structure BotInfo where
  username : List Char
  connected : Bool
  muted : Bool
deriving DecidableEq, Repr

/-- Result of one `ChatBot.chat(message)` call: the updated coordinator
state, the transport sends issued (one `bot.chat(line)` per non-empty
trimmed line, in order), the messages recorded into the shared history
(one `cm.addMessage` call), and the number of `cm.recordBotMessage` calls. -/
structure ChatResult where
  cm : CmState
  sends : List (List Char)
  historyRecorded : List (List Char)
  rateRecorded : Nat
deriving DecidableEq, Repr

/-- `ChatBot.chat(message)` from bot.js: no-op when disconnected or the
message is empty; otherwise send each non-empty trimmed line in order, then
record the whole message once in the shared history and one timestamp in
the rate window. -/
def botChat (bot : BotInfo) (cm : CmState) (message : List Char) (now : Nat) : ChatResult :=
  if ¬bot.connected ∨ message = [] then ⟨cm, [], [], 0⟩
  else
    ⟨recordBotMessage (addMessage cm bot.username message now) now,
     chatLines message, [message], 1⟩

/-! ## Dispatch coordinator (index.js `dispatchResponse`) -/

/-- Insertion-ordered association list with JS `Map.set` semantics
(update in place, append when new). -/
def assocSet {β : Type} (m : List (List Char × β)) (k : List Char) (v : β) :
    List (List Char × β) :=
  match m with
  | [] => [(k, v)]
  | (k', v') :: rest => if k' = k then (k', v) :: rest else (k', v') :: assocSet rest k v

/-- `BOT_COOLDOWN = 8000`. -/
def BOT_COOLDOWN : Nat := 8000

/-- The dispatch-level coordinator state: the conversation state plus the
`botBusy` set, the per-bot `botLastMessage` cooldown map, and the
conversation links (`recentConversations`). -/
structure DispatchState where
  cm : CmState
  botBusy : List (List Char)
  botLastMessage : List (List Char × Nat)
  recentConversations : List (List Char × (List Char × Nat))
deriving DecidableEq, Repr

/-- The synchronous prefix of `dispatchResponse` (index.js): the
connected/muted/rate-limit guards, the busy check (log-and-skip), and the
`botBusy.add` when the dispatch proceeds.  The read/cooldown delay merely
schedules the next phase and is not modelled as state. -/
def dispatchStart (st : DispatchState) (bot : BotInfo) (now : Nat) :
    DispatchState × Bool :=
  if ¬bot.connected ∨ bot.muted then (st, false)
  else
    let (cm', limited) := isRateLimited st.cm now
    if limited then ({ st with cm := cm' }, false)
    else if st.botBusy.contains bot.username then ({ st with cm := cm' }, false)
    else ({ st with cm := cm', botBusy := st.botBusy ++ [bot.username] }, true)

/-- The read-delay callback of `dispatchResponse`: re-check the rate limit
(clearing busy and aborting when limited), then act on the completion
collaborator's reply — `none` (error or empty) clears busy with nothing
scheduled, `some text` schedules the typing-delay send. -/
def dispatchAfterRead (st : DispatchState) (bot : BotInfo) (now : Nat)
    (reply : Option (List Char)) : DispatchState × Option (List Char) :=
  let (cm', limited) := isRateLimited st.cm now
  if limited then
    ({ st with cm := cm', botBusy := st.botBusy.erase bot.username }, none)
  else
    match reply with
    | none => ({ st with cm := cm', botBusy := st.botBusy.erase bot.username }, none)
    | some text => ({ st with cm := cm' }, some text)

/-- The typing-delay callback of `dispatchResponse`: `bot.chat(text)`, then
record the cooldown timestamp, update the conversation link, and clear the
busy flag.  Returns the transport sends issued. -/
def dispatchSend (st : DispatchState) (bot : BotInfo) (playerName : Option (List Char))
    (text : List Char) (now : Nat) : DispatchState × List (List Char) :=
  let r := botChat bot st.cm text now
  ({ cm := r.cm,
     botBusy := st.botBusy.erase bot.username,
     botLastMessage := assocSet st.botLastMessage bot.username now,
     recentConversations :=
       match playerName with
       | some pn => assocSet st.recentConversations pn (bot.username, now)
       | none => st.recentConversations },
   r.sends)

/-! ## Connection lifecycle (bot.js `ChatBot`): kicks, reconnect backoff,
park/unpark -/

/-- The `ChatBot` connection-lifecycle fields. -/
structure BotConn where
  connected : Bool
  reconnectDelay : Nat
  kickCount : Nat
  maxKickRetries : Nat
  wasKicked : Bool
  parked : Bool
deriving DecidableEq, Repr

/-- Constructor state: `reconnectDelay = 10000`, `kickCount = 0`,
`maxKickRetries = 5`. -/
def mkBotConn : BotConn :=
  { connected := false, reconnectDelay := 10000, kickCount := 0,
    maxKickRetries := 5, wasKicked := false, parked := false }

/-- The `kicked` event handler: mark disconnected, increment the
consecutive-kick counter; give up (no timer) once the counter reaches
`maxKickRetries`, otherwise schedule a reconnect after
`reconnectDelay * 3 * 2^(kickCount - 1)` (30s, 60s, 120s, ...). -/
def kickedHandler (st : BotConn) : BotConn × Option Nat :=
  let st' := { st with
    connected := false
    wasKicked := true
    kickCount := st.kickCount + 1 }
  if st'.maxKickRetries ≤ st'.kickCount then (st', none)
  else (st', some (st'.reconnectDelay * 3 * 2 ^ (st'.kickCount - 1)))

/-- The `login` event handler: mark connected and reset the
consecutive-kick counter. -/
def loginHandler (st : BotConn) : BotConn :=
  { st with connected := true, kickCount := 0 }

/-- The park/unpark fields of a `ChatBot`, with the pending park timer made
explicit (`some delay` = a `setTimeout` for the park disconnect is
pending). -/
structure ParkSt where
  connected : Bool
  parked : Bool
  parkTimer : Option Nat
deriving DecidableEq, Repr

/-- `park(delay)` from bot.js: no-op when already parked; otherwise set
`parked` (immediately, at call time) and schedule the disconnect check
after `delay`. -/
def park (st : ParkSt) (delay : Nat) : ParkSt :=
  if st.parked then st
  else { st with parked := true, parkTimer := some delay }

/-- The park timer's callback: clear the timer handle; if the entity was
unparked while waiting do nothing; otherwise, if currently connected, end
the transport session (the returned flag records the `bot.end()` call). -/
def parkTimerFire (st : ParkSt) : ParkSt × Bool :=
  let st' := { st with parkTimer := none }
  if ¬st'.parked then (st', false)
  else if st'.connected then (st', true)
  else (st', false)

/-- `unpark()` from bot.js: no-op when not parked; otherwise clear `parked`,
cancel the pending park timer, and — only when disconnected — schedule a
reconnect after `10000 + u` ms where `u` is the random draw
`Math.random() * 10000` (so the settle delay lies in [10s, 20s)). -/
def unpark (st : ParkSt) (u : Nat) : ParkSt × Option Nat :=
  if ¬st.parked then (st, none)
  else
    let st' := { st with parked := false, parkTimer := none }
    if st'.connected then (st', none)
    else (st', some (10000 + u))

/-! ## Claim theorems: memory, history, orchestrator, chat -/

/-- **C5**: with `recent.length = memoryMaxRecent - 1` (14), one more
`addMemory` triggers exactly one compaction, after which
`recent.length = memoryKeepAfterCompact` (5) and `recent` is the newest 5
entries; if the compaction's completion call fails, the record is left
unchanged by the compaction and compaction is retried on the next
trigger. -/
theorem claim_C5_memory_compaction (mem : MemRecord) (entry entry2 s : List Char)
    (hlen : mem.recent.length = memoryMaxRecent - 1) :
    (addMemory mem entry).2 = true
    ∧ (compactMemory (addMemory mem entry).1 (some s)).recent.length =
        memoryKeepAfterCompact
    ∧ (compactMemory (addMemory mem entry).1 (some s)).recent =
        ((addMemory mem entry).1.recent).drop
          ((addMemory mem entry).1.recent.length - memoryKeepAfterCompact)
    ∧ (compactMemory (addMemory mem entry).1 (some s)).summary = s
    ∧ compactMemory (addMemory mem entry).1 none = (addMemory mem entry).1
    ∧ (addMemory (compactMemory (addMemory mem entry).1 none) entry2).2 = true := by
  have hlen14 : mem.recent.length = 14 := by rw [hlen, memoryMaxRecent]
  have h1 : (addMemory mem entry).1.recent.length = memoryMaxRecent := by
    simp only [addMemory, List.length_append, List.length_cons, List.length_nil, hlen14,
      memoryMaxRecent]
  have hnotlt : ¬(addMemory mem entry).1.recent.length < memoryMaxRecent := by
    rw [h1]
    exact Nat.lt_irrefl _
  refine ⟨?_, ?_, ?_, ?_, ?_, ?_⟩
  · simp only [addMemory, decide_eq_true_eq, List.length_append, List.length_cons,
      List.length_nil, hlen14, memoryMaxRecent]
    omega
  · rw [compactMemory, if_neg hnotlt]
    simp only [List.length_drop, h1]
    rw [memoryMaxRecent, memoryKeepAfterCompact]
  · rw [compactMemory, if_neg hnotlt]
  · rw [compactMemory, if_neg hnotlt]
  · rw [compactMemory, if_neg hnotlt]
  · rw [compactMemory, if_neg hnotlt]
    simp only [addMemory, decide_eq_true_eq, List.length_append, List.length_cons,
      List.length_nil, h1, memoryMaxRecent]
    omega

theorem claim_C5_memory_compaction_witness :
    (MemRecord.mk [] ((List.range 14).map (fun i => [Char.ofNat (65 + i)]))).recent.length
      = memoryMaxRecent - 1
    ∧ (addMemory (MemRecord.mk [] ((List.range 14).map (fun i => [Char.ofNat (65 + i)])))
        "e".toList).2 = true :=
  ⟨by decide,
   (claim_C5_memory_compaction
     (MemRecord.mk [] ((List.range 14).map (fun i => [Char.ofNat (65 + i)])))
     "e".toList "f".toList "s".toList (by decide)).1⟩

theorem compactHistory_chatHistory_len (st : CmState) :
    (compactHistory st).chatHistory.length ≤ historyKeep := by
  simp only [compactHistory, List.length_drop]
  omega

theorem compactStep_len (s : CmState) :
    (if compactThreshold < s.chatHistory.length then compactHistory s else s).chatHistory.length
      ≤ compactThreshold := by
  split
  · exact le_trans (compactHistory_chatHistory_len _) (by decide)
  · omega

theorem truncSummary_length_le (s : List Char) :
    (truncSummary s).length ≤ summaryCap := by
  rw [truncSummary]
  by_cases h : summaryCap < s.length
  · rw [if_pos h, List.length_drop]
    omega
  · rw [if_neg h]
    omega

theorem compactStep_summary (s : CmState) (hcap : s.compactSummary.length ≤ summaryCap) :
    (if compactThreshold < s.chatHistory.length then compactHistory s
      else s).compactSummary.length ≤ summaryCap := by
  split
  · exact truncSummary_length_le _
  · exact hcap


/-- **C6**: after every `addMessage` call the shared chat history length
never exceeds the configured capacity (20), and the compacted summary never
exceeds its 500-character cap, being truncated only from its oldest end
(the retained summary is a suffix of the concatenation, and nothing is
dropped while the concatenation is within the cap); compaction concatenates
the content removed from the live history onto the existing summary. -/
theorem claim_C6_history_bounds (st : CmState) (username message : List Char) (now : Nat) :
    (addMessage st username message now).chatHistory.length ≤ maxHistory
    ∧ (st.compactSummary.length ≤ summaryCap →
        (addMessage st username message now).compactSummary.length ≤ summaryCap)
    ∧ (compactHistory st).compactSummary = truncSummary (combinedSummary st)
    ∧ truncSummary (combinedSummary st) <:+ combinedSummary st
    ∧ ((combinedSummary st).length ≤ summaryCap →
        truncSummary (combinedSummary st) = combinedSummary st)
    ∧ (st.compactSummary ≠ [] →
        combinedSummary st = st.compactSummary ++ " | ".toList ++ removedSummary st) := by
  refine ⟨?_, ?_, rfl, ?_, ?_, ?_⟩
  · simp only [addMessage]
    exact le_trans (compactStep_len _) (by decide)
  · intro hcap
    simp only [addMessage]
    apply compactStep_summary
    split
    · exact hcap
    · exact hcap
  · rw [truncSummary]
    by_cases h : summaryCap < (combinedSummary st).length
    · rw [if_pos h]
      exact List.drop_suffix _ _
    · rw [if_neg h]
  · intro h
    rw [truncSummary, if_neg (by omega)]
  · intro h
    rw [combinedSummary, if_neg h]

theorem claim_C6_history_bounds_witness :
    (CmState.mk [] "abc".toList [] 300000 12).compactSummary.length ≤ summaryCap
    ∧ (addMessage (CmState.mk [] "abc".toList [] 300000 12) "u".toList "hi".toList
        7).compactSummary.length ≤ summaryCap :=
  ⟨by decide,
   (claim_C6_history_bounds (CmState.mk [] "abc".toList [] 300000 12) "u".toList
     "hi".toList 7).2.1 (by decide)⟩

/-- **C9**: a completion-call error makes `orchestrate` return null, and a
reply whose picked name (after stripping an optional `server:` prefix,
which sets the server-question flag) is not in the known roster is treated
as a decline (null, so no dispatch); a reply naming a roster entity returns
that entity together with the server-question flag. -/
theorem claim_C9_orchestrator_decline (profiles : List BotProfile) (pick : List Char) :
    orchestratePick profiles none = none
    ∧ ((stripServer pick).1 ∉ profiles.map BotProfile.username →
        orchestratePick profiles (some pick) = none)
    ∧ ((stripServer pick).1 ∈ profiles.map BotProfile.username →
        orchestratePick profiles (some pick) =
          some ((stripServer pick).1, (stripServer pick).2)) := by
  have hmain : orchestratePick profiles (some pick) =
      (if (profiles.map BotProfile.username).contains (stripServer pick).1
        then some ((stripServer pick).1, (stripServer pick).2) else none) := by
    simp only [orchestratePick, stripServer]
    by_cases hp : "server:".toList.isPrefixOf pick = true
    · rw [hp]
      simp
    · rw [Bool.not_eq_true] at hp
      rw [hp]
      simp
  refine ⟨rfl, ?_, ?_⟩
  · intro h
    exact hmain.trans (if_neg (fun hc => h (list_contains_iff.mp hc)))
  · intro h
    exact hmain.trans (if_pos (list_contains_iff.mpr h))

theorem claim_C9_orchestrator_decline_witness :
    ((stripServer "server:Steve".toList).1 ∈
      ([⟨"Steve".toList⟩] : List BotProfile).map BotProfile.username)
    ∧ orchestratePick [⟨"Steve".toList⟩] (some "server:Steve".toList) =
        some ((stripServer "server:Steve".toList).1, (stripServer "server:Steve".toList).2) :=
  ⟨by decide,
   (claim_C9_orchestrator_decline [⟨"Steve".toList⟩] "server:Steve".toList).2.2 (by decide)⟩

/-- **C10**: every `chat(message)` call on a connected bot with a non-empty
message issues one transport send per non-empty trimmed line of the
message, in order, but records exactly one entry in the shared history (the
whole message) and exactly one rate-window timestamp per call, regardless
of how many lines were sent; when the bot is disconnected or the message is
empty, it sends nothing and records nothing. -/
theorem claim_C10_chat_sends (bot : BotInfo) (cm : CmState) (message : List Char)
    (now : Nat) :
    (bot.connected → message ≠ [] →
      (botChat bot cm message now).sends = chatLines message
      ∧ (botChat bot cm message now).historyRecorded = [message]
      ∧ (botChat bot cm message now).rateRecorded = 1
      ∧ (botChat bot cm message now).cm =
          recordBotMessage (addMessage cm bot.username message now) now)
    ∧ (¬bot.connected ∨ message = [] →
        botChat bot cm message now = ⟨cm, [], [], 0⟩) := by
  constructor
  · intro hc hm
    rw [botChat, if_neg (by simp [hc, hm])]
    exact ⟨rfl, rfl, rfl, rfl⟩
  · intro h
    rw [botChat, if_pos h]

theorem claim_C10_chat_sends_witness :
    ((BotInfo.mk "S".toList true false).connected ∧ "a\nb".toList ≠ []
      ∧ (botChat (BotInfo.mk "S".toList true false)
          (CmState.mk [] [] [] 300000 12) "a\nb".toList 3).sends = chatLines "a\nb".toList)
    ∧ botChat (BotInfo.mk "S".toList false false) (CmState.mk [] [] [] 300000 12)
        "a\nb".toList 3 = ⟨CmState.mk [] [] [] 300000 12, [], [], 0⟩ :=
  ⟨⟨by decide, by decide,
    ((claim_C10_chat_sends (BotInfo.mk "S".toList true false)
      (CmState.mk [] [] [] 300000 12) "a\nb".toList 3).1 (by decide) (by decide)).1⟩,
   (claim_C10_chat_sends (BotInfo.mk "S".toList false false)
     (CmState.mk [] [] [] 300000 12) "a\nb".toList 3).2 (by decide)⟩

/-! ## Claim theorems: kick backoff, park/unpark -/

/-- **C7**: the reconnect delay scheduled after each kick strictly
increases with the consecutive-kick count (for a fixed positive base
delay); once the counter would reach `maxKickRetries`, no reconnect timer
is scheduled; a successful login resets the counter to zero and marks the
entity connected. -/
theorem claim_C7_kick_backoff (st st' : BotConn) :
    (st.reconnectDelay = st'.reconnectDelay → 1 ≤ st.reconnectDelay →
      st.kickCount < st'.kickCount →
      ∀ d d', (kickedHandler st).2 = some d → (kickedHandler st').2 = some d' → d < d')
    ∧ (st.maxKickRetries ≤ st.kickCount + 1 → (kickedHandler st).2 = none)
    ∧ (loginHandler st).kickCount = 0 ∧ (loginHandler st).connected = true := by
  refine ⟨?_, ?_, rfl, rfl⟩
  · intro hrd hpos hk d d' hd hd'
    rw [kickedHandler] at hd
    rw [kickedHandler] at hd'
    split at hd
    · simp at hd
    · split at hd'
      · simp at hd'
      · simp only [Prod.snd, Option.some.injEq] at hd hd'
        rw [hrd] at hpos
        subst hd
        subst hd'
        have h2 : (2 : Nat) ^ (st.kickCount + 1 - 1) < 2 ^ (st'.kickCount + 1 - 1) :=
          Nat.pow_lt_pow_right (by omega) (by omega)
        rw [hrd]
        exact mul_lt_mul_of_pos_left h2 (by omega)
  · intro h
    rw [kickedHandler]
    split
    · rfl
    · rename_i hc
      exact absurd h hc

theorem claim_C7_kick_backoff_witness :
    (mkBotConn.reconnectDelay = ({ mkBotConn with kickCount := 1 } : BotConn).reconnectDelay
      ∧ 1 ≤ mkBotConn.reconnectDelay
      ∧ mkBotConn.kickCount < ({ mkBotConn with kickCount := 1 } : BotConn).kickCount
      ∧ (kickedHandler mkBotConn).2 = some 30000
      ∧ (kickedHandler { mkBotConn with kickCount := 1 }).2 = some 60000)
    ∧ 30000 < 60000 :=
  ⟨⟨by decide, by decide, by decide, by decide, by decide⟩,
   (claim_C7_kick_backoff mkBotConn { mkBotConn with kickCount := 1 }).1 (by decide)
     (by decide) (by decide) 30000 60000 (by decide) (by decide)⟩

/-- **C8 (amended)**: `park(delay)` sets `parked` immediately at call time
(not after the delay) and schedules the disconnect check after `delay`;
when that timer fires with the entity still parked, the transport session
is ended exactly when the entity is connected; an
`unpark()` issued before the timer fires clears `parked` and cancels the
pending timer, so the timer's callback never ends the session for that
park; `unpark()` on a connected entity clears `parked` without scheduling
any reconnect, while `unpark()` on a disconnected entity schedules a
reconnect after a settle delay of `10000 + u` ms, which for any random
draw `u < 10000` lies in the interval [10s, 20s). -/
theorem claim_C8_park_unpark (st : ParkSt) (delay u : Nat) :
    (st.parked = false →
      (park st delay).parked = true ∧ (park st delay).parkTimer = some delay
      ∧ (park st delay).connected = st.connected)
    ∧ (parkTimerFire (park st delay)).2 = st.connected
    ∧ ((unpark (park st delay) u).1.parked = false
      ∧ (unpark (park st delay) u).1.parkTimer = none
      ∧ (parkTimerFire (unpark (park st delay) u).1).2 = false)
    ∧ (st.parked = true → st.connected = true →
        unpark st u = ({ st with parked := false, parkTimer := none }, none))
    ∧ (st.parked = true → st.connected = false → u < 10000 →
        (unpark st u).2 = some (10000 + u)
        ∧ 10000 ≤ 10000 + u ∧ 10000 + u < 20000) := by
  have hp : (park st delay).parked = true := by
    rw [park]
    split
    · assumption
    · rfl
  refine ⟨?_, ?_, ?_, ?_, ?_⟩
  · intro h
    rw [park, if_neg (by simp [h])]
    exact ⟨rfl, rfl, rfl⟩
  · have hpc : (park st delay).connected = st.connected := by
      rw [park]
      split
      · rfl
      · rfl
    rw [parkTimerFire, if_neg (fun hn => hn hp)]
    by_cases hcn : (park st delay).connected = true
    · rw [if_pos hcn, ← hpc, hcn]
    · rw [if_neg hcn, ← hpc]
      simp only [Bool.not_eq_true] at hcn
      rw [hcn]
  · have hu : (unpark (park st delay) u).1.parked = false
        ∧ (unpark (park st delay) u).1.parkTimer = none := by
      rw [unpark, if_neg (fun hn => hn hp)]
      constructor
      · cases hc : (park st delay).connected <;> simp [hc]
      · cases hc : (park st delay).connected <;> simp [hc]
    refine ⟨hu.1, hu.2, ?_⟩
    rw [parkTimerFire, if_pos]
    simp [hu.1]
  · intro h1 h2
    rw [unpark, if_neg (fun hn => hn h1), if_pos h2]
  · intro h1 h2 h3
    rw [unpark, if_neg (fun hn => hn h1), if_neg (by simp [h2])]
    exact ⟨rfl, by omega, by omega⟩

theorem claim_C8_park_unpark_witness :
    ((ParkSt.mk true false none).parked = false
      ∧ ((park (ParkSt.mk true false none) 5000).parked = true
        ∧ (park (ParkSt.mk true false none) 5000).parkTimer = some 5000
        ∧ (park (ParkSt.mk true false none) 5000).connected =
            (ParkSt.mk true false none).connected))
    ∧ (unpark (park (ParkSt.mk true false none) 5000) 3).1.parked = false :=
  ⟨⟨by decide, (claim_C8_park_unpark (ParkSt.mk true false none) 5000 3).1 (by decide)⟩,
   (claim_C8_park_unpark (ParkSt.mk true false none) 5000 3).2.2.1.1⟩

/-- The frozen claim's wording — "`park(delay)` sets Parked after `delay`"
— does not hold of the code: `park` sets `parked` at call time, so
immediately after the call, with no time elapsed and the disconnect-check
timer still pending, the entity is already parked. -/
theorem claim_C8_park_counterexample :
    (ParkSt.mk true false none).parked = false
    ∧ (park (ParkSt.mk true false none) 5000).parked = true
    ∧ (park (ParkSt.mk true false none) 5000).parkTimer = some 5000 := by
  decide

/-! ## Rate-window pruning laws, and the rate-window claim -/

theorem pruneWindow_idem (ts : List Nat) (W t1 t2 : Nat) (h : t1 ≤ t2) :
    pruneWindow (pruneWindow ts t1 W) t2 W = pruneWindow ts t2 W := by
  simp only [pruneWindow, List.filter_filter]
  apply List.filter_congr
  intro a _
  by_cases h2 : t2 - a < W
  · have h1' : t1 - a < W := by omega
    simp [h1', h2]
  · simp [h2]

theorem pruneWindow_len_mono (ts : List Nat) (W t1 t2 : Nat) (h : t1 ≤ t2) :
    (pruneWindow ts t2 W).length ≤ (pruneWindow ts t1 W).length := by
  apply List.Sublist.length_le
  apply List.monotone_filter_right
  intro a ha
  simp only [decide_eq_true_eq] at ha ⊢
  omega

/-- **C2**: with a finite configured maximum, once exactly `maxInWindow`
recorded timestamps fall inside the sliding window, `isRateLimited()`
returns true and a dispatch attempt is suppressed (skipped before any
completion or send is scheduled, and the entity is not marked busy); at
any instant where the window has elapsed past enough timestamps to leave
`maxInWindow - 1` in the window, `isRateLimited()` returns false and a
dispatch proceeds — and recording that one send puts the count back at the
maximum, so the window is immediately rate-limited again (capacity for
exactly one send was restored). -/
theorem claim_C2_rate_window (st : DispatchState) (bot : BotInfo) (t1 t2 : Nat)
    (hc : bot.connected = true) (hm : bot.muted = false)
    (hbusy : st.botBusy.contains bot.username = false)
    (hcount : (pruneWindow st.cm.messageTimestamps t1 st.cm.windowMs).length =
      st.cm.maxInWindow) :
    (isRateLimited st.cm t1).2 = true
    ∧ (dispatchStart st bot t1).2 = false
    ∧ (dispatchStart st bot t1).1.botBusy = st.botBusy
    ∧ ((pruneWindow st.cm.messageTimestamps t2 st.cm.windowMs).length =
          st.cm.maxInWindow - 1 → 1 ≤ st.cm.maxInWindow →
        (isRateLimited st.cm t2).2 = false
        ∧ (dispatchStart st bot t2).2 = true
        ∧ (1 ≤ st.cm.windowMs →
            (isRateLimited (recordBotMessage (isRateLimited st.cm t2).1 t2) t2).2 = true)) := by
  have h1 : (isRateLimited st.cm t1).2 = true := by
    simp only [isRateLimited, hcount, decide_eq_true_eq]
    omega
  refine ⟨h1, ?_, ?_, ?_⟩
  · rw [dispatchStart, if_neg (by simp [hc, hm])]
    simp only [isRateLimited, hcount]
    simp
  · rw [dispatchStart, if_neg (by simp [hc, hm])]
    simp only [isRateLimited, hcount]
    simp
  · intro hc2 hmax
    have h2 : (isRateLimited st.cm t2).2 = false := by
      simp only [isRateLimited, hc2, decide_eq_false_iff_not]
      omega
    refine ⟨h2, ?_, ?_⟩
    · rw [dispatchStart, if_neg (by simp [hc, hm])]
      simp only [isRateLimited, hc2]
      rw [if_neg (by simp; omega),
        if_neg (fun hcon => by rw [hbusy] at hcon; exact Bool.noConfusion hcon)]
    · intro hW
      simp only [isRateLimited, recordBotMessage, pruneWindow, List.filter_append,
        decide_eq_true_eq]
      rw [← pruneWindow, ← pruneWindow, pruneWindow_idem _ _ _ _ (le_refl t2)]
      have hsingle : List.filter (fun t => decide (t2 - t < st.cm.windowMs)) [t2] = [t2] := by
        have hlt : t2 - t2 < st.cm.windowMs := by omega
        simp [hlt]
        omega
      rw [hsingle, List.length_append, hc2]
      simp
      omega

theorem claim_C2_rate_window_witness :
    ((BotInfo.mk "S".toList true false).connected = true
      ∧ (BotInfo.mk "S".toList true false).muted = false
      ∧ (DispatchState.mk (CmState.mk [] [] [100] 300000 1) [] [] []).botBusy.contains
          (BotInfo.mk "S".toList true false).username = false
      ∧ (pruneWindow
          (DispatchState.mk (CmState.mk [] [] [100] 300000 1) [] [] []).cm.messageTimestamps
          200
          (DispatchState.mk (CmState.mk [] [] [100] 300000 1) [] [] []).cm.windowMs).length =
        (DispatchState.mk (CmState.mk [] [] [100] 300000 1) [] [] []).cm.maxInWindow)
    ∧ (isRateLimited (DispatchState.mk (CmState.mk [] [] [100] 300000 1) [] [] []).cm
        200).2 = true :=
  ⟨⟨rfl, rfl, by decide, by decide⟩,
   (claim_C2_rate_window (DispatchState.mk (CmState.mk [] [] [100] 300000 1) [] [] [])
     (BotInfo.mk "S".toList true false) 200 400100 rfl rfl (by decide) (by decide)).1⟩

/-! ## Dispatch-phase laws and the busy-flag claim -/

theorem dispatchStart_skip (st : DispatchState) (bot : BotInfo) (t : Nat)
    (hc : bot.connected = true) (hm : bot.muted = false)
    (hb : st.botBusy.contains bot.username = true) :
    dispatchStart st bot t = ({ st with cm := (isRateLimited st.cm t).1 }, false) := by
  rw [dispatchStart, if_neg (by simp [hc, hm])]
  simp only [isRateLimited]
  by_cases hl : decide (st.cm.maxInWindow ≤
      (pruneWindow st.cm.messageTimestamps t st.cm.windowMs).length) = true
  · rw [if_pos hl]
  · rw [if_neg hl, if_pos hb]

theorem dispatchAfterRead_go (st : DispatchState) (bot : BotInfo) (t : Nat)
    (text : List Char) (h : (isRateLimited st.cm t).2 = false) :
    dispatchAfterRead st bot t (some text) =
      ({ st with cm := (isRateLimited st.cm t).1 }, some text) := by
  rw [dispatchAfterRead]
  simp only [isRateLimited] at h ⊢
  rw [if_neg (by simp [h])]

theorem dispatchSend_sends (st : DispatchState) (bot : BotInfo)
    (pn : Option (List Char)) (text : List Char) (t : Nat) :
    (dispatchSend st bot pn text t).2 = (botChat bot st.cm text t).sends := rfl

theorem botChat_sends (bot : BotInfo) (cm : CmState) (text : List Char) (now : Nat)
    (hc : bot.connected = true) :
    (botChat bot cm text now).sends = chatLines text := by
  rw [botChat]
  by_cases ht : text = []
  · rw [if_pos (Or.inr ht), ht]
    rfl
  · rw [if_neg (by simp [hc, ht])]

/-- **C1**: the busy flag — a second `dispatchResponse` issued for an
entity while a first dispatch to it is in flight is skipped outright: not
queued, and it leaves the busy set, the cooldown map, the conversation
links, the chat history and the summary untouched; its only effect on the
shared rate window is the in-place prune of already-expired timestamps,
which is observationally nil (every `isRateLimited` query from that moment
on answers exactly as it would have).  The first dispatch then completes
normally: when its completion call returns a reply, that reply's chat —
exactly one transport send for a single-line reply — supplies the only
sends of the two dispatches. -/
theorem claim_C1_busy_skip (st0 st1 : DispatchState) (bot : BotInfo)
    (pn : Option (List Char)) (text : List Char) (t1 t2 t3 : Nat)
    (hc : bot.connected = true) (hm : bot.muted = false)
    (h12 : t1 ≤ t2) (h23 : t2 ≤ t3)
    (hstart : dispatchStart st0 bot t1 = (st1, true)) :
    (dispatchStart st1 bot t2).2 = false
    ∧ (dispatchStart st1 bot t2).1.botBusy = st1.botBusy
    ∧ (dispatchStart st1 bot t2).1.botLastMessage = st1.botLastMessage
    ∧ (dispatchStart st1 bot t2).1.recentConversations = st1.recentConversations
    ∧ (dispatchStart st1 bot t2).1.cm.chatHistory = st1.cm.chatHistory
    ∧ (dispatchStart st1 bot t2).1.cm.compactSummary = st1.cm.compactSummary
    ∧ (∀ t', t2 ≤ t' →
        isRateLimited (dispatchStart st1 bot t2).1.cm t' = isRateLimited st1.cm t')
    ∧ (dispatchAfterRead (dispatchStart st1 bot t2).1 bot t3 (some text)).2 = some text
    ∧ (dispatchSend (dispatchAfterRead (dispatchStart st1 bot t2).1 bot t3 (some text)).1
        bot pn text t3).2 = chatLines text
    ∧ ((chatLines text).length = 1 →
        (dispatchSend (dispatchAfterRead (dispatchStart st1 bot t2).1 bot t3 (some text)).1
          bot pn text t3).2.length = 1) := by
  rw [dispatchStart, if_neg (by simp [hc, hm])] at hstart
  simp only [isRateLimited] at hstart
  split at hstart
  · simp at hstart
  · split at hstart
    · simp at hstart
    · rename_i hn1 hn2
      injection hstart with hA htrue
      have hts : st1.cm.messageTimestamps =
          pruneWindow st0.cm.messageTimestamps t1 st0.cm.windowMs := by rw [← hA]
      have hW : st1.cm.windowMs = st0.cm.windowMs := by rw [← hA]
      have hmax : st1.cm.maxInWindow = st0.cm.maxInWindow := by rw [← hA]
      have hlen : (pruneWindow st0.cm.messageTimestamps t1 st0.cm.windowMs).length
          < st0.cm.maxInWindow := by
        simp only [decide_eq_true_eq] at hn1
        omega
      have hb2 : st1.botBusy.contains bot.username = true := by
        rw [← hA]
        simp
      have hskip := dispatchStart_skip st1 bot t2 hc hm hb2
      have hnotlim3 :
          (isRateLimited ({ st1 with cm := (isRateLimited st1.cm t2).1 }
            : DispatchState).cm t3).2 = false := by
        simp only [isRateLimited, decide_eq_false_iff_not]
        intro hle
        rw [hts, hW, hmax, pruneWindow_idem st0.cm.messageTimestamps st0.cm.windowMs t1 t2 h12,
          pruneWindow_idem st0.cm.messageTimestamps st0.cm.windowMs t2 t3 h23] at hle
        have hmono := pruneWindow_len_mono st0.cm.messageTimestamps st0.cm.windowMs t1 t3
          (le_trans h12 h23)
        omega
      refine ⟨?_, ?_, ?_, ?_, ?_, ?_, ?_, ?_, ?_, ?_⟩
      · rw [hskip]
      · rw [hskip]
      · rw [hskip]
      · rw [hskip]
      · rw [hskip]
        rfl
      · rw [hskip]
        rfl
      · intro t' ht'
        rw [hskip]
        simp only [isRateLimited]
        simp only [pruneWindow_idem st1.cm.messageTimestamps st1.cm.windowMs t2 t' ht']
      · rw [hskip, dispatchAfterRead_go _ _ _ _ hnotlim3]
      · rw [hskip, dispatchAfterRead_go _ _ _ _ hnotlim3, dispatchSend_sends,
          botChat_sends _ _ _ _ hc]
      · intro h1len
        rw [hskip, dispatchAfterRead_go _ _ _ _ hnotlim3, dispatchSend_sends,
          botChat_sends _ _ _ _ hc]
        exact h1len

theorem claim_C1_busy_skip_witness :
    ((BotInfo.mk "S".toList true false).connected = true
      ∧ (BotInfo.mk "S".toList true false).muted = false
      ∧ (1000 : Nat) ≤ 2000 ∧ (2000 : Nat) ≤ 3000
      ∧ dispatchStart (DispatchState.mk (CmState.mk [] [] [] 300000 12) [] [] [])
          (BotInfo.mk "S".toList true false) 1000 =
        (DispatchState.mk (CmState.mk [] [] [] 300000 12) ["S".toList] [] [], true))
    ∧ (dispatchStart (DispatchState.mk (CmState.mk [] [] [] 300000 12) ["S".toList] [] [])
        (BotInfo.mk "S".toList true false) 2000).2 = false :=
  ⟨⟨rfl, rfl, by decide, by decide, by decide⟩,
   (claim_C1_busy_skip (DispatchState.mk (CmState.mk [] [] [] 300000 12) [] [] [])
     (DispatchState.mk (CmState.mk [] [] [] 300000 12) ["S".toList] [] [])
     (BotInfo.mk "S".toList true false) none "hi".toList 1000 2000 3000
     rfl rfl (by decide) (by decide) (by decide)).1⟩
